import Mathlib

/-!
# A verification development for the Stark-prover repository

Shallow embedding, in Lean 4, of the Rust sources of the `Stark-prover`
repository (finite-field arithmetic, dense polynomials, the Fiat-Shamir
channel and the FRI commit/verify phases), together with theorems that
settle the specification claims against the embedded code.

Machine integers are modelled as `Nat` with the `u64` wrap-around
(`% 2^64`) made explicit exactly where the Rust code computes in `u64`;
the widened `u128` intermediates of the source never overflow, so they
are modelled by exact `Nat` arithmetic followed by the reduction that the
source performs.
-/

namespace StarkProver

/-- `2^64`, the wrap-around modulus of Rust `u64` arithmetic. -/
def U64 : Nat := 2 ^ 64

/-- `FieldElement::new(value)`: reduce the value modulo `MODULUS` (here `p`). -/
def feNew (p v : Nat) : Nat := v % p

/-- `Add for FieldElement`: `FieldElement::new(self.value + rhs.value)`.
The sum is computed in `u64`, hence the explicit wrap at `2^64`.
(`AddAssign` computes the same value.) -/
def feAdd (p a b : Nat) : Nat := feNew p ((a + b) % U64)

/-- `Sub for FieldElement`: `let diff = MODULUS + self.value - rhs.value;
FieldElement::new(diff % MODULUS)`.  `MODULUS + a - b` is `u64` arithmetic:
the sum wraps at `2^64` and the subtraction borrows at `2^64`
(adding `U64` first keeps the `Nat` subtraction exact in every case). -/
def feSub (p a b : Nat) : Nat := feNew p ((((p + a) % U64 + U64 - b) % U64) % p)

/-- `Mul for FieldElement`:
`FieldElement::new((a as u128 * b as u128 % MODULUS as u128) as u64)`.
The `u128` product of two `u64` values never overflows, so it is exact. -/
def feMul (p a b : Nat) : Nat := feNew p ((a * b) % p)

/-- `Neg for FieldElement`: `FieldElement::new(MODULUS - self.value)`. -/
def feNeg (p a : Nat) : Nat := feNew p (p - a)

/-- The loop of `FieldElement::pow` (square-and-multiply).  Both
`result * base` and `base * base` are `u64` products: they wrap at `2^64`
before the reduction `% MODULUS`, exactly as in the source.  The first
argument is structural fuel standing for the `while e > 0` loop; the
exponent at least halves each turn, so fuel `e` always suffices
(`fePowAux_fuel` below), keeping the definition kernel-computable. -/
def fePowAux (p : Nat) : Nat → Nat → Nat → Nat → Nat
  | 0, _, result, _ => result
  | fuel + 1, base, result, e =>
    if e = 0 then result
    else fePowAux p fuel (base * base % U64 % p)
      (if e % 2 = 1 then result * base % U64 % p else result) (e / 2)

/-- `FieldElement::pow(exp)`: `result = 1; base = self.value;` then the
square-and-multiply loop. -/
def fePow (p a e : Nat) : Nat := fePowAux p e a 1 e

/-- `FieldElement::inverse()`: `self.pow(MODULUS - 2)` (Fermat).  The source
only asserts `MODULUS > 2`; it performs no check on the element itself. -/
def feInv (p a : Nat) : Nat := fePow p a (p - 2)

example : feAdd 7 3 5 = 1 := by decide
example : feSub 7 1 2 = 6 := by decide
example : feMul 7 3 4 = 5 := by decide
example : fePow 7 3 3 = 6 := by decide
example : feInv 7 3 = 5 := by decide
example : feInv 7 0 = 0 := by decide

/-! ## Dense polynomials (`src/polynomial/ops.rs`) -/

/-- The trailing-zero-trimming loop
(`while let Some(&last) = coeffs.last() { if last == 0 { coeffs.pop() } else break }`):
removes the maximal all-zero suffix of the coefficient vector. -/
def trimZeros : List Nat → List Nat
  | [] => []
  | c :: rest =>
    match trimZeros rest with
    | [] => if c = 0 then [] else [c]
    | r => c :: r

/-- The degree recomputation used by `Polynomial::new` / `update_degree`:
`-1` if the (trimmed) vector is empty, else `len - 1`. -/
def degOf (l : List Nat) : Int := if l.isEmpty then -1 else (l.length : Int) - 1

/-- `Polynomial`: dense coefficient vector (`coefficients[i]` is the
coefficient of `x^i`) together with the tracked `degree : isize`. -/
structure Poly where
  coefficients : List Nat
  degree : Int
deriving DecidableEq

/-- `Polynomial::new`: trim trailing zeros, then set `degree`. -/
def Poly.new (coeffs : List Nat) : Poly :=
  ⟨trimZeros coeffs, degOf (trimZeros coeffs)⟩

/-- `Polynomial::zero()`. -/
def Poly.zero : Poly := ⟨[], -1⟩

/-- `Polynomial::update_degree` (trim, then recompute `degree`). -/
def Poly.updateDegree (q : Poly) : Poly := Poly.new q.coefficients

/-- `Polynomial::is_zero`: `self.degree == -1`. -/
def Poly.isZero (q : Poly) : Bool := q.degree == -1

/-- `Polynomial::leading_coefficient`: `None` for zero, else
`coefficients[degree as usize]` (in-bounds for well-formed values). -/
def Poly.leadingCoefficient (q : Poly) : Option Nat :=
  if q.isZero then none else some (q.coefficients.getD q.degree.toNat 0)

/-- `Polynomial::evaluate`: Horner's method, iterating the coefficients in
reverse: `result = result * x + coef`. -/
def Poly.evaluate (p : Nat) (q : Poly) (x : Nat) : Nat :=
  q.coefficients.reverse.foldl (fun result coef => feAdd p (feMul p result x) coef) 0

/-- The coefficient update of `Polynomial::add_assign`: resize `self` with
zeros to the longer length, then `self[i] += rhs[i]` for `i < rhs.len()`. -/
def addCoeffs (p : Nat) : List Nat → List Nat → List Nat
  | xs, [] => xs
  | [], y :: ys => feAdd p 0 y :: addCoeffs p [] ys
  | x :: xs, y :: ys => feAdd p x y :: addCoeffs p xs ys

/-- `Polynomial::add_assign`: early return when `rhs.is_zero()` (checked on
the `degree` field), else add coefficientwise and `update_degree`. -/
def Poly.addAssign (p : Nat) (a b : Poly) : Poly :=
  if b.isZero then a else Poly.new (addCoeffs p a.coefficients b.coefficients)

/-- The coefficient update of `Polynomial::sub_assign` (resize, then
`self[i] -= rhs[i]`). -/
def subCoeffs (p : Nat) : List Nat → List Nat → List Nat
  | xs, [] => xs
  | [], y :: ys => feSub p 0 y :: subCoeffs p [] ys
  | x :: xs, y :: ys => feSub p x y :: subCoeffs p xs ys

/-- `Polynomial::sub_assign`. -/
def Poly.subAssign (p : Nat) (a b : Poly) : Poly :=
  if b.isZero then a else Poly.new (subCoeffs p a.coefficients b.coefficients)

/-- The inner loop of `Polynomial::mul_assign` for one `(i, a)` with `a ≠ 0`:
`for (j, b) in rhs: product[i + j] += a * b`. -/
def mulInner (p i a : Nat) (ys : List Nat) (prod : List Nat) : List Nat :=
  ys.enum.foldl
    (fun pr jb => pr.set (i + jb.1) (feAdd p (pr.getD (i + jb.1) 0) (feMul p a jb.2)))
    prod

/-- The convolution of `Polynomial::mul_assign`: a zero-initialised product
vector of length `len_a + len_b - 1`, accumulated row by row, skipping rows
whose coefficient `a` is zero (the `continue` in the source). -/
def mulCoeffs (p : Nat) (xs ys : List Nat) : List Nat :=
  xs.enum.foldl
    (fun prod ia => if ia.2 = 0 then prod else mulInner p ia.1 ia.2 ys prod)
    (List.replicate (xs.length + ys.length - 1) 0)

/-- `Polynomial::mul_assign`: `self` unchanged when `self.is_zero()`, the
zero polynomial when `rhs.is_zero()`, else the trimmed convolution. -/
def Poly.mulAssign (p : Nat) (a b : Poly) : Poly :=
  if a.isZero then a
  else if b.isZero then Poly.zero
  else Poly.new (mulCoeffs p a.coefficients b.coefficients)

/-- `Polynomial::scalar_mul` (also `Mul<FieldElement> for Polynomial`):
multiply every stored coefficient in place.  Note that the source neither
re-trims nor recomputes `degree` here. -/
def Poly.scalarMul (p : Nat) (q : Poly) (s : Nat) : Poly :=
  ⟨q.coefficients.map (fun c => feMul p c s), q.degree⟩

/-- `Polynomial::scalar_div`: `None` models the
`panic!("Division by zero ...")` on a zero scalar; otherwise multiply every
coefficient by the scalar's inverse (again without re-trimming). -/
def Poly.scalarDiv (p : Nat) (q : Poly) (s : Nat) : Option Poly :=
  if s = 0 then none
  else some ⟨q.coefficients.map (fun c => feMul p c (feInv p s)), q.degree⟩

/-- The inner subtraction loop of `Polynomial::div_rem`:
`for i in 0..=den_deg { rem[i + shift] -= ratio * rhs.coefficients[i] }`. -/
def subMulAt (p ratio shift : Nat) (bC : List Nat) (denDeg : Nat)
    (rem : List Nat) : List Nat :=
  (List.range (denDeg + 1)).foldl
    (fun r i => r.set (i + shift) (feSub p (r.getD (i + shift) 0) (feMul p ratio (bC.getD i 0))))
    rem

/-- The long-division loop of `Polynomial::div_rem`
(`while rem_deg >= den_deg && rem_deg != -1`).  The first `Nat` argument is
structural fuel for the loop; each turn cancels the remainder's leading
coefficient (the modulus being prime), so `a.degree + 1` turns always
suffice — with a non-prime modulus the Rust loop can run forever, which the
fuel models by giving up and returning the current state. -/
def divRemLoop (p : Nat) (bC : List Nat) (denDeg : Int) (denLead : Nat) :
    Nat → List Nat → Int → List Nat → List Nat × List Nat
  | 0, rem, _, quot => (quot, rem)
  | fuel + 1, rem, remDeg, quot =>
    if denDeg ≤ remDeg ∧ remDeg ≠ -1 then
      let leadRem := rem.getD remDeg.toNat 0
      let ratio := feMul p leadRem (feInv p denLead)
      let shift := (remDeg - denDeg).toNat
      let quot' := quot.set shift (feAdd p (quot.getD shift 0) ratio)
      let rem' := trimZeros (subMulAt p ratio shift bC denDeg.toNat rem)
      divRemLoop p bC denDeg denLead fuel rem' (degOf rem') quot'
    else (quot, rem)

/-- `Polynomial::div_rem`: `None` models the
`panic!("Division by zero polynomial")`; if the dividend is zero or of
smaller degree the result is `(zero, dividend)`; otherwise schoolbook long
division by the divisor's leading-coefficient inverse, both results passed
through `Polynomial::new`. -/
def Poly.divRem (p : Nat) (a b : Poly) : Option (Poly × Poly) :=
  if b.isZero then none
  else if a.isZero ∨ a.degree < b.degree then some (Poly.zero, a)
  else
    let quot0 := List.replicate (a.degree - b.degree + 1).toNat 0
    let denLead := b.coefficients.getD b.degree.toNat 0
    let qr := divRemLoop p b.coefficients b.degree denLead (a.degree.toNat + 1)
      a.coefficients a.degree quot0
    some (Poly.new qr.1, Poly.new qr.2)

example : Poly.new [1, 2, 0, 0] = ⟨[1, 2], 1⟩ := by decide
example : Poly.evaluate 7 (Poly.new [5]) 0 = 5 := by decide
example : Poly.addAssign 7 (Poly.new [2, 3]) (Poly.new [4, 1]) = ⟨[6, 4], 1⟩ := by decide
example : Poly.mulAssign 7 (Poly.new [1, 2]) (Poly.new [3, 4]) = ⟨[3, 3, 1], 2⟩ := by decide
example :
    Poly.divRem 7 (Poly.new [1, 3, 2]) (Poly.new [1, 1]) =
      some (⟨[1, 2], 1⟩, ⟨[], -1⟩) := by decide
example :
    Poly.divRem 7 (Poly.new [2, 5, 3]) (Poly.new [1, 1]) =
      some (⟨[2, 3], 1⟩, ⟨[], -1⟩) := by decide

/-! ## Interpolation (`src/polynomial/interpolation.rs`) -/

/-- `gen_polynomial_from_roots`: the zero polynomial for an empty root list,
else the iterated product `∏ (x - root)` starting from `poly![1]`
(each factor is `poly![-root, one()]`). -/
def genPolynomialFromRoots (p : Nat) (roots : List Nat) : Poly :=
  if roots = [] then Poly.zero
  else roots.foldl
    (fun q root => Poly.mulAssign p q (Poly.new [feNeg p root, feNew p 1]))
    (Poly.new [feNew p 1])

/-- The `denom` accumulation of `gen_lagrange_polynomials(_parallel)`:
`denom = ∏ over j ≠ i of (xs[i] - xs[j])`, starting from `one()`. -/
def genLagrangeDenom (p : Nat) (xs : List Nat) (i : Nat) : Nat :=
  (List.range xs.length).foldl
    (fun denom j =>
      if i = j then denom else feMul p denom (feSub p (xs.getD i 0) (xs.getD j 0)))
    1

/-- `gen_lagrange_polynomials_parallel` (the sequential
`gen_lagrange_polynomials` computes the same list; the rayon map is
order-preserving over pure, independent tasks).  `None` models the
`panic!("Z(x) should be divisible by (x - x_i)")` branch and the divide-by-
zero-polynomial panic inside `div_rem`. -/
def genLagrangePolys (p : Nat) (xs : List Nat) : Option (List Poly) :=
  if xs.length = 0 then some []
  else
    (List.range xs.length).mapM (fun i =>
      match Poly.divRem p (genPolynomialFromRoots p xs)
          (genPolynomialFromRoots p [xs.getD i 0]) with
      | none => none
      | some (li, rem) =>
        if rem.isZero then
          some (Poly.scalarMul p li (feInv p (genLagrangeDenom p xs i)))
        else none)

/-- `interpolate_lagrange_polynomials`: `None` models the mismatched-length
panic; the zero polynomial for empty input; else
`acc.add_assign(term)` over `term = L_i.clone().scalar_mul(ys[i])`. -/
def interpolateLagrangePolys (p : Nat) (xs ys : List Nat) : Option Poly :=
  if xs.length ≠ ys.length then none
  else if xs.length = 0 then some Poly.zero
  else
    match genLagrangePolys p xs with
    | none => none
    | some l =>
      some ((List.range xs.length).foldl
        (fun acc i => Poly.addAssign p acc (Poly.scalarMul p (l.getD i Poly.zero) (ys.getD i 0)))
        Poly.zero)

/-! ## FRI commit phase (`src/fri/fri_commit.rs`)

The Merkle commitments and the channel messages sent during
`fri_commit` have no effect on the layer evaluation vectors, the fold
count or the final constant; the only channel influence on those values
is the stream of field elements returned by
`receive_random_field_element`, abstracted below as `betas : Nat → Nat`
(the `k`-th fold coefficient). -/

/-- `iter().step_by(2)`: every other element, starting with the first. -/
def everyOther : List Nat → List Nat
  | [] => []
  | [x] => [x]
  | x :: _ :: rest => x :: everyOther rest

/-- `next_fri_polynomial`: split the stored coefficients into odd-indexed
(`skip(1).step_by(2)`) and even-indexed (`step_by(2)`) parts,
scale the odd one by `beta` (`Mul<FieldElement>`, i.e. `scalar_mul`),
and add the even one (`odd_poly + even_poly`). -/
def nextFriPolynomial (p : Nat) (q : Poly) (beta : Nat) : Poly :=
  Poly.addAssign p
    (Poly.scalarMul p (Poly.new (everyOther (q.coefficients.drop 1))) beta)
    (Poly.new (everyOther q.coefficients))

/-- `next_fri_domain`: square each element of the first half of the domain. -/
def nextFriDomain (p : Nat) (domain : List Nat) : List Nat :=
  (domain.take (domain.length / 2)).map (fun x => fePow p x 2)

/-- `next_fri_layer`: folded polynomial, folded domain, and the evaluations
of the folded polynomial over the folded domain. -/
def nextFriLayer (p : Nat) (q : Poly) (domain : List Nat) (beta : Nat) :
    Poly × List Nat × List Nat :=
  (nextFriPolynomial p q beta, nextFriDomain p domain,
    (nextFriDomain p domain).map (fun x => Poly.evaluate p (nextFriPolynomial p q beta) x))

/-- The `while poly.degree >= 1` loop of `fri_commit`: each turn draws
`betas k`, folds polynomial and domain, and appends the new evaluation
vector.  Returns the appended layers together with the final (degree `≤ 0`)
polynomial.  The first argument is structural fuel; folding strictly
shrinks the degree of a well-formed polynomial, so `degree + 1` turns
always suffice. -/
def friCommitLoop (p : Nat) (betas : Nat → Nat) :
    Nat → Poly → List Nat → Nat → List (List Nat) × Poly
  | 0, q, _, _ => ([], q)
  | fuel + 1, q, domain, k =>
    if 1 ≤ q.degree then
      let step := nextFriLayer p q domain (betas k)
      let rest := friCommitLoop p betas fuel step.1 step.2.1 (k + 1)
      (step.2.2 :: rest.1, rest.2)
    else ([], q)

/-- `fri_commit`, restricted to the data the claims are about: the list of
per-layer evaluation vectors (`fri_layers`) and the final polynomial. -/
def friCommitLayers (p : Nat) (q : Poly) (domain : List Nat) (betas : Nat → Nat) :
    List (List Nat) × Poly :=
  let rest := friCommitLoop p betas (q.degree.toNat + 1) q domain 0
  ((domain.map (fun x => Poly.evaluate p q x)) :: rest.1, rest.2)

/-- The final constant sent by `fri_commit` after the loop:
`0` for the zero polynomial, else `coefficients[0]`. -/
def friFinalValue (q : Poly) : Nat := if q.isZero then 0 else q.coefficients.getD 0 0

/-! ## The Fiat-Shamir channel (`src/channel/channel.rs`)

`sha256::digest` (an external crate producing a hex string) is abstracted
as a parameter `H : String → String`, and `U256::from_str_radix(state, 16)`
as a parameter `parse : String → Nat` (its `expect` can only panic when the
state is not valid hex; the embedding models the non-panicking path).
`hex::encode` is concrete below.  All three are pure functions of their
input, which is what the determinism results quantify over. -/

/-- One hex digit, lower-case, as produced by `hex::encode`:
`0`-`9` then `a`-`f`. -/
def hexDigitChar (n : Nat) : Char :=
  if n < 10 then Char.ofNat (Char.toNat '0' + n)
  else if n < 16 then Char.ofNat (Char.toNat 'a' + (n - 10))
  else '0'

/-- `hex::encode`: two lower-case hex digits per byte (bytes are `Nat`s
reduced `% 256`). -/
def hexEncode (bytes : List Nat) : String :=
  String.mk (bytes.flatMap (fun b => [hexDigitChar (b % 256 / 16), hexDigitChar (b % 256 % 16)]))

/-- The big-endian 8-byte encoding `usize::to_be_bytes` /
`u64::to_be_bytes`. -/
def beBytes8 (n : Nat) : List Nat :=
  [n / 2 ^ 56 % 256, n / 2 ^ 48 % 256, n / 2 ^ 40 % 256, n / 2 ^ 32 % 256,
    n / 2 ^ 24 % 256, n / 2 ^ 16 % 256, n / 2 ^ 8 % 256, n % 256]

/-- `Channel`: the full transcript `proof`, the `compressed_proof` subset,
and the rolling hex-string `state`. -/
structure Chan where
  proof : List (List Nat)
  compressedProof : List (List Nat)
  state : String
deriving DecidableEq

/-- `Channel::new()`. -/
def Chan.new : Chan := ⟨[], [], ""⟩

/-- `Channel::send`: `state = H(old_state ++ hex::encode(message))`, and the
raw bytes are appended to both logs. -/
def Chan.send (H : String → String) (c : Chan) (message : List Nat) : Chan :=
  ⟨c.proof ++ [message], c.compressedProof ++ [message],
    H (c.state ++ hexEncode message)⟩

/-- The numeric derivation inside `Channel::receive_random_int`:
`num = (state_u256 + U256::from(min)) % range_u256` with
`range = (max - min) + 1`, then `num.into_limbs()[0] as usize`.
`U256` arithmetic wraps at `2^256` and the limb cast at `2^64`. -/
def receiveRandomIntNum (stateNum min max : Nat) : Nat :=
  ((stateNum % 2 ^ 256 + min) % 2 ^ 256) % (max - min + 1) % U64

/-- `Channel::receive_random_int`: derive the number from the current state,
advance `state = H(old_state)`, and push the number's 8 bytes to `proof`
only when `show_in_proof` is set. -/
def Chan.receiveRandomInt (H : String → String) (parse : String → Nat) (c : Chan)
    (min max : Nat) (showInProof : Bool) : Nat × Chan :=
  let num := receiveRandomIntNum (parse c.state) min max
  (num,
    ⟨if showInProof then c.proof ++ [beBytes8 num] else c.proof,
      c.compressedProof, H c.state⟩)

/-- `Channel::receive_random_field_element`: a random integer in
`[0, MODULUS - 1]` (not recorded by `receive_random_int` itself), whose
bytes are then pushed to `proof`, returned as `FieldElement::new(num)`. -/
def Chan.receiveRandomFieldElement (H : String → String) (parse : String → Nat)
    (p : Nat) (c : Chan) : Nat × Chan :=
  let nc := Chan.receiveRandomInt H parse c 0 (p - 1) false
  (feNew p nc.1, ⟨nc.2.proof ++ [beBytes8 nc.1], nc.2.compressedProof, nc.2.state⟩)

/-- The calls a driver can make on a `Channel` (the arguments of `send` and
`receive_random_int`, and the modulus of `receive_random_field_element`,
are the "identical arguments" of the determinism contract). -/
inductive ChanCall where
  | send (message : List Nat)
  | receiveRandomFieldElement
  | receiveRandomInt (min max : Nat) (showInProof : Bool)
deriving DecidableEq

/-- One channel interaction, as a relation: the channel moves from `c` to
`c'`, yielding the derived value (if any).  Each constructor is exactly the
corresponding method of the source. -/
inductive ChanStep (H : String → String) (parse : String → Nat) (p : Nat) :
    Chan → ChanCall → Chan → Option Nat → Prop where
  | send (c : Chan) (msg : List Nat) :
      ChanStep H parse p c (.send msg) (Chan.send H c msg) none
  | receiveRandomFieldElement (c : Chan) :
      ChanStep H parse p c .receiveRandomFieldElement
        (Chan.receiveRandomFieldElement H parse p c).2
        (some (Chan.receiveRandomFieldElement H parse p c).1)
  | receiveRandomInt (c : Chan) (min max : Nat) (b : Bool) :
      ChanStep H parse p c (.receiveRandomInt min max b)
        (Chan.receiveRandomInt H parse c min max b).2
        (some (Chan.receiveRandomInt H parse c min max b).1)

/-- A channel driven through an ordered sequence of calls, collecting the
derived values in order. -/
inductive ChanRun (H : String → String) (parse : String → Nat) (p : Nat) :
    Chan → List ChanCall → Chan → List (Option Nat) → Prop where
  | nil (c : Chan) : ChanRun H parse p c [] c []
  | cons (c : Chan) (call : ChanCall) (c' : Chan) (out : Option Nat)
      (calls : List ChanCall) (c'' : Chan) (outs : List (Option Nat)) :
      ChanStep H parse p c call c' out →
      ChanRun H parse p c' calls c'' outs →
      ChanRun H parse p c (call :: calls) c'' (out :: outs)

/-! ## FRI verification (`src/fri/fri_verify.rs`)

The query loop of `verify_fri` (the `for _q in 0..num_queries` at lines
62-70): per query it draws the query index through
`receive_random_int(0, max_index, true)` and runs `verify_fri_layers`;
`verify_fri_layers` only reads the channel's `proof` log (it never
advances the state) and otherwise depends on `MerkleTree::validate`, which
is not present under `src/` — it is therefore abstracted as the
boolean-valued parameter `layersCheck`, applied to the drawn index and the
channel it reads. -/

/-- The query loop of `verify_fri`: on the first query whose
`verify_fri_layers` fails, return `false` immediately. -/
def verifyFriQueryLoop (H : String → String) (parse : String → Nat)
    (maxIndex : Nat) (layersCheck : Nat → Chan → Bool) :
    Nat → Chan → Bool × Chan
  | 0, c => (true, c)
  | numQueries + 1, c =>
    let ic := Chan.receiveRandomInt H parse c 0 maxIndex true
    if layersCheck ic.1 ic.2 then
      verifyFriQueryLoop H parse maxIndex layersCheck numQueries ic.2
    else (false, ic.2)

/-! ## Bridge to Mathlib: `ZMod p` and `Polynomial (ZMod p)` -/

/-- Interpret a coefficient list (index `i` ↔ coefficient of `x^i`) as a
polynomial over `ZMod p`, in Horner form. -/
noncomputable def toPoly (p : Nat) (l : List Nat) : Polynomial (ZMod p) :=
  l.foldr (fun c acc => Polynomial.C (c : ZMod p) + Polynomial.X * acc) 0

/-- All entries of a coefficient list are reduced field values. -/
def allLt (p : Nat) (l : List Nat) : Prop := ∀ c ∈ l, c < p

/-- The representation invariant of `Polynomial`: reduced coefficients,
no trailing zeros, and a `degree` field that matches the vector. -/
def PolyWF (p : Nat) (q : Poly) : Prop :=
  allLt p q.coefficients ∧ trimZeros q.coefficients = q.coefficients ∧
    q.degree = degOf q.coefficients

instance (p : Nat) (l : List Nat) : Decidable (allLt p l) := by
  unfold allLt; infer_instance

instance (p : Nat) (q : Poly) : Decidable (PolyWF p q) := by
  unfold PolyWF; infer_instance

theorem feNew_lt {p : Nat} (hp : 0 < p) (v : Nat) : feNew p v < p :=
  Nat.mod_lt _ hp

theorem feNew_cast (p v : Nat) : ((feNew p v : Nat) : ZMod p) = (v : ZMod p) :=
  ZMod.natCast_mod v p

theorem feAdd_eq {p a b : Nat} (hsm : p < 2 ^ 32) (ha : a < p) (hb : b < p) :
    feAdd p a b = (a + b) % p := by
  have h64 : a + b < 2 ^ 64 := by
    have : a + b < 2 ^ 32 + 2 ^ 32 := by omega
    calc a + b < 2 ^ 32 + 2 ^ 32 := this
      _ ≤ 2 ^ 64 := by norm_num
  simp only [feAdd, feNew, U64, Nat.mod_eq_of_lt h64]

theorem feAdd_lt {p : Nat} (hp : 0 < p) (a b : Nat) : feAdd p a b < p :=
  feNew_lt hp _

theorem feAdd_cast {p a b : Nat} (hsm : p < 2 ^ 32) (ha : a < p) (hb : b < p) :
    ((feAdd p a b : Nat) : ZMod p) = (a : ZMod p) + b := by
  rw [feAdd_eq hsm ha hb, ZMod.natCast_mod, Nat.cast_add]

theorem feSub_eq {p a b : Nat} (hsm : p < 2 ^ 32) (ha : a < p) (hb : b < p) :
    feSub p a b = (p + a - b) % p := by
  have h1 : (p + a) % U64 = p + a := by
    simp only [U64]; omega
  have h2 : (p + a + U64 - b) % U64 = p + a - b := by
    simp only [U64]; omega
  simp only [feSub, feNew, h1, h2]
  exact Nat.mod_mod_of_dvd _ dvd_rfl

theorem feSub_lt {p : Nat} (hp : 0 < p) (a b : Nat) : feSub p a b < p :=
  feNew_lt hp _

theorem feSub_cast {p a b : Nat} (hsm : p < 2 ^ 32) (ha : a < p) (hb : b < p) :
    ((feSub p a b : Nat) : ZMod p) = (a : ZMod p) - b := by
  rw [feSub_eq hsm ha hb, ZMod.natCast_mod, Nat.cast_sub (by omega), Nat.cast_add,
    ZMod.natCast_self, zero_add]

theorem feMul_cast (p a b : Nat) : ((feMul p a b : Nat) : ZMod p) = (a : ZMod p) * b := by
  simp only [feMul, feNew, ZMod.natCast_mod, Nat.cast_mul]

theorem feMul_lt {p : Nat} (hp : 0 < p) (a b : Nat) : feMul p a b < p :=
  feNew_lt hp _

theorem feNeg_cast {p a : Nat} (ha : a < p) : ((feNeg p a : Nat) : ZMod p) = -(a : ZMod p) := by
  simp only [feNeg, feNew, ZMod.natCast_mod, Nat.cast_sub ha.le, ZMod.natCast_self, zero_sub]

theorem feNeg_lt {p : Nat} (hp : 0 < p) (a : Nat) : feNeg p a < p :=
  feNew_lt hp _

theorem fePowAux_spec {p : Nat} (hsm : p < 2 ^ 32) :
    ∀ fuel e base result, e ≤ fuel → base < p → result < p →
      fePowAux p fuel base result e = (result * base ^ e) % p := by
  intro fuel
  induction fuel with
  | zero =>
    intro e base result he _ hres
    interval_cases e
    simp [fePowAux, Nat.mod_eq_of_lt hres]
  | succ fuel ih =>
    intro e base result he hbase hres
    by_cases he0 : e = 0
    · subst he0
      simp [fePowAux, Nat.mod_eq_of_lt hres]
    · have hmul : ∀ x y : Nat, x < p → y < p → x * y % U64 = x * y := by
        intro x y hx hy
        have : x * y < 2 ^ 64 := by
          calc x * y ≤ (2 ^ 32 - 1) * (2 ^ 32 - 1) := by
                exact Nat.mul_le_mul (by omega) (by omega)
            _ < 2 ^ 64 := by norm_num
        simp only [U64]; omega
      have hstep :
          fePowAux p (fuel + 1) base result e =
            fePowAux p fuel (base * base % U64 % p)
              (if e % 2 = 1 then result * base % U64 % p else result) (e / 2) := by
        simp [fePowAux, he0]
      have hb' : base * base % U64 % p < p := Nat.mod_lt _ (by omega)
      have hr' : (if e % 2 = 1 then result * base % U64 % p else result) < p := by
        split
        · exact Nat.mod_lt _ (by omega)
        · exact hres
      have hfe : e / 2 ≤ fuel := by
        have := Nat.div_lt_self (Nat.pos_of_ne_zero he0) (by norm_num : (1 : Nat) < 2)
        omega
      rw [hstep, ih _ _ _ hfe hb' hr']
      have hcast :
          (((if e % 2 = 1 then result * base % U64 % p else result) *
              (base * base % U64 % p) ^ (e / 2) : Nat) : ZMod p) =
            ((result * base ^ e : Nat) : ZMod p) := by
        rw [hmul base base hbase hbase]
        push_cast [ZMod.natCast_mod]
        by_cases hpar : e % 2 = 1
        · simp only [hpar, if_pos, hmul result base hres hbase]
          push_cast [ZMod.natCast_mod]
          conv_rhs => rw [← Nat.div_add_mod e 2]
          rw [hpar]
          rw [pow_add, pow_mul, pow_one]
          ring
        · have hpar0 : e % 2 = 0 := by omega
          simp only [if_neg hpar]
          conv_rhs => rw [← Nat.div_add_mod e 2, hpar0, Nat.add_zero]
          rw [pow_mul]
          ring
      exact (ZMod.natCast_eq_natCast_iff _ _ _).mp hcast

theorem fePow_eq {p a : Nat} (hsm : p < 2 ^ 32) (h1 : 1 < p) (ha : a < p) (e : Nat) :
    fePow p a e = a ^ e % p := by
  rw [fePow, fePowAux_spec hsm _ _ _ _ le_rfl ha h1, one_mul]

theorem fePow_lt {p a : Nat} (hsm : p < 2 ^ 32) (h1 : 1 < p) (ha : a < p) (e : Nat) :
    fePow p a e < p := by
  rw [fePow_eq hsm h1 ha]
  exact Nat.mod_lt _ (by omega)

theorem fePow_cast {p a : Nat} (hsm : p < 2 ^ 32) (h1 : 1 < p) (ha : a < p) (e : Nat) :
    ((fePow p a e : Nat) : ZMod p) = (a : ZMod p) ^ e := by
  rw [fePow_eq hsm h1 ha, ZMod.natCast_mod, Nat.cast_pow]

theorem feInv_lt {p a : Nat} (hsm : p < 2 ^ 32) (h1 : 1 < p) (ha : a < p) :
    feInv p a < p :=
  fePow_lt hsm h1 ha _

/-- Over a prime modulus, `inverse()` of a nonzero reduced element is the
field inverse. -/
theorem feInv_cast {p a : Nat} (hp : p.Prime) (hsm : p < 2 ^ 32) (ha : a < p)
    (ha0 : a ≠ 0) : ((feInv p a : Nat) : ZMod p) = (a : ZMod p)⁻¹ := by
  haveI : Fact p.Prime := ⟨hp⟩
  have hz : (a : ZMod p) ≠ 0 := by
    intro h
    have := ZMod.val_cast_of_lt ha
    rw [h, ZMod.val_zero] at this
    exact ha0 this.symm
  have h1 := ZMod.pow_card_sub_one_eq_one hz
  have h2 : (a : ZMod p) ^ (p - 2) * (a : ZMod p) = 1 := by
    rw [← pow_succ]
    have : p - 2 + 1 = p - 1 := by
      have := hp.two_le
      omega
    rw [this]
    exact h1
  rw [feInv, fePow_cast hsm hp.one_lt ha]
  exact eq_inv_of_mul_eq_one_left h2

/-- `a * a.inverse() = 1` at the level of the Rust values, for a nonzero
reduced element over a prime modulus. -/
theorem feInv_mul {p a : Nat} (hp : p.Prime) (hsm : p < 2 ^ 32) (ha : a < p)
    (ha0 : a ≠ 0) : feMul p a (feInv p a) = 1 := by
  haveI : Fact p.Prime := ⟨hp⟩
  have hz : (a : ZMod p) ≠ 0 := by
    intro h
    have := ZMod.val_cast_of_lt ha
    rw [h, ZMod.val_zero] at this
    exact ha0 this.symm
  have hcast : ((feMul p a (feInv p a) : Nat) : ZMod p) = 1 := by
    rw [feMul_cast, feInv_cast hp hsm ha ha0]
    exact mul_inv_cancel₀ hz
  have hlt : feMul p a (feInv p a) < p := feMul_lt hp.pos _ _
  have := ZMod.val_cast_of_lt hlt
  rw [hcast, ZMod.val_one_eq_one_mod] at this
  rw [Nat.mod_eq_of_lt hp.one_lt] at this
  exact this.symm

open Polynomial in
theorem toPoly_nil (p : Nat) : toPoly p [] = 0 := rfl

open Polynomial in
theorem toPoly_cons (p c : Nat) (l : List Nat) :
    toPoly p (c :: l) = C (c : ZMod p) + X * toPoly p l := rfl

open Polynomial in
theorem toPoly_coeff (p : Nat) (l : List Nat) (n : Nat) :
    (toPoly p l).coeff n = ((l.getD n 0 : Nat) : ZMod p) := by
  induction l generalizing n with
  | nil => simp [toPoly_nil]
  | cons c rest ih =>
    rw [toPoly_cons]
    cases n with
    | zero => simp [coeff_add, mul_coeff_zero, coeff_X_zero]
    | succ n => simp [coeff_add, coeff_X_mul, ih, coeff_C]

open Polynomial in
theorem toPoly_append (p : Nat) (l1 l2 : List Nat) :
    toPoly p (l1 ++ l2) = toPoly p l1 + X ^ l1.length * toPoly p l2 := by
  induction l1 with
  | nil => simp [toPoly_nil]
  | cons c rest ih =>
    simp only [List.cons_append, toPoly_cons, ih, List.length_cons]
    ring

open Polynomial in
theorem toPoly_replicate_zero (p n : Nat) : toPoly p (List.replicate n 0) = 0 := by
  induction n with
  | zero => rfl
  | succ n ih => simp [List.replicate_succ, toPoly_cons, ih]

theorem toPoly_trimZeros (p : Nat) (l : List Nat) :
    toPoly p (trimZeros l) = toPoly p l := by
  induction l with
  | nil => rfl
  | cons c rest ih =>
    rw [toPoly_cons, ← ih]
    show toPoly p (trimZeros (c :: rest)) = _
    cases h : trimZeros rest with
    | nil =>
      rw [trimZeros, h]
      by_cases hc : c = 0
      · simp [hc, toPoly_nil, h]
      · simp [hc, toPoly_cons, h]
    | cons r rs =>
      rw [trimZeros, h, toPoly_cons]

theorem trimZeros_subset (l : List Nat) : ∀ c ∈ trimZeros l, c ∈ l := by
  induction l with
  | nil => intro c hc; exact absurd hc (by simp [trimZeros])
  | cons a rest ih =>
    intro c hc
    rw [trimZeros] at hc
    cases h : trimZeros rest with
    | nil =>
      rw [h] at hc
      by_cases ha : a = 0
      · simp [ha] at hc
      · simp [ha] at hc
        simp [hc]
    | cons r rs =>
      rw [h] at hc
      rcases List.mem_cons.mp hc with rfl | hc
      · exact List.mem_cons_self _ _
      · exact List.mem_cons_of_mem _ (ih c (by rw [h]; exact hc))

theorem allLt_trimZeros {p : Nat} {l : List Nat} (h : allLt p l) :
    allLt p (trimZeros l) := fun c hc => h c (trimZeros_subset l c hc)

theorem trimZeros_getLast?_ne_zero (l : List Nat) :
    (trimZeros l).getLast? ≠ some 0 := by
  induction l with
  | nil => simp [trimZeros]
  | cons a rest ih =>
    rw [trimZeros]
    cases h : trimZeros rest with
    | nil =>
      by_cases ha : a = 0
      · simp [ha]
      · simp [ha]
    | cons r rs =>
      rw [List.getLast?_cons_cons]
      rw [h] at ih
      exact ih

theorem trimZeros_eq_self (l : List Nat) (h : l.getLast? ≠ some 0) :
    trimZeros l = l := by
  induction l with
  | nil => rfl
  | cons a rest ih =>
    cases rest with
    | nil =>
      simp only [List.getLast?_singleton, ne_eq, Option.some.injEq] at h
      simp [trimZeros, h]
    | cons b bs =>
      rw [List.getLast?_cons_cons] at h
      have hrest := ih h
      rw [trimZeros, hrest]

theorem trimZeros_idem (l : List Nat) : trimZeros (trimZeros l) = trimZeros l :=
  trimZeros_eq_self _ (trimZeros_getLast?_ne_zero l)

theorem trimZeros_length_le (l : List Nat) : (trimZeros l).length ≤ l.length := by
  induction l with
  | nil => simp [trimZeros]
  | cons a rest ih =>
    rw [trimZeros]
    cases h : trimZeros rest with
    | nil =>
      by_cases ha : a = 0 <;> simp [ha, List.length_cons]
    | cons r rs =>
      rw [h] at ih
      simpa [List.length_cons] using ih

theorem trimZeros_length_lt {l : List Nat} (h : l.getLast? = some 0) :
    (trimZeros l).length < l.length := by
  induction l with
  | nil => simp at h
  | cons a rest ih =>
    cases hr : rest with
    | nil =>
      subst hr
      simp only [List.getLast?_singleton, Option.some.injEq] at h
      simp [trimZeros, h]
    | cons b bs =>
      subst hr
      rw [List.getLast?_cons_cons] at h
      have := ih h
      rw [trimZeros]
      cases ht : trimZeros (b :: bs) with
      | nil =>
        by_cases ha : a = 0
        · rw [if_pos ha]
          simp only [List.length_nil, List.length_cons]
          omega
        · rw [if_neg ha]
          simp only [List.length_nil, List.length_singleton, List.length_cons]
          omega
      | cons r rs =>
        rw [ht] at this
        simp only [List.length_cons] at this ⊢
        omega

theorem castNat_inj {p x y : Nat} (hx : x < p) (hy : y < p)
    (h : (x : ZMod p) = (y : ZMod p)) : x = y := by
  haveI : NeZero p := ⟨by omega⟩
  have h1 := ZMod.val_cast_of_lt hx
  have h2 := ZMod.val_cast_of_lt hy
  rw [← h1, ← h2, h]

theorem castNat_ne_zero {p x : Nat} (hx : x < p) (hx0 : x ≠ 0) :
    (x : ZMod p) ≠ 0 := by
  intro h
  exact hx0 (castNat_inj hx (by omega) (by rw [h]; simp))

/-- `toPoly` is injective on well-formed (reduced, trimmed) coefficient
lists. -/
theorem toPoly_inj {p : Nat} (hp : 0 < p) {l1 l2 : List Nat}
    (h1 : allLt p l1) (h2 : allLt p l2)
    (t1 : trimZeros l1 = l1) (t2 : trimZeros l2 = l2)
    (h : toPoly p l1 = toPoly p l2) : l1 = l2 := by
  have hcoeff : ∀ n, l1.getD n 0 = l2.getD n 0 := by
    intro n
    have := congrArg (fun q => Polynomial.coeff q n) h
    simp only [toPoly_coeff] at this
    have hx : l1.getD n 0 < p := by
      rcases Nat.lt_or_ge n l1.length with hn | hn
      · exact h1 _ (List.getD_eq_getElem l1 0 hn ▸ List.getElem_mem hn)
      · rw [List.getD_eq_default _ _ hn]; omega
    have hy : l2.getD n 0 < p := by
      rcases Nat.lt_or_ge n l2.length with hn | hn
      · exact h2 _ (List.getD_eq_getElem l2 0 hn ▸ List.getElem_mem hn)
      · rw [List.getD_eq_default _ _ hn]; omega
    exact castNat_inj hx hy this
  have hlast : ∀ l : List Nat, trimZeros l = l → ∀ n, l.length = n + 1 → l.getD n 0 ≠ 0 := by
    intro l tl n hn
    have hne : l ≠ [] := by intro h0; rw [h0] at hn; simp at hn
    have := trimZeros_getLast?_ne_zero l
    rw [tl, List.getLast?_eq_getLast l hne] at this
    have hget : l.getD n 0 = l.getLast hne := by
      rw [List.getD_eq_getElem l 0 (by omega), List.getLast_eq_getElem]
      congr 1
      omega
    rw [hget]
    intro hcon
    exact this (by rw [hcon])
  have hlen : l1.length = l2.length := by
    by_contra hne
    rcases Nat.lt_or_ge l1.length l2.length with hlt | hge
    · obtain ⟨m, hm⟩ : ∃ m, l2.length = m + 1 := ⟨l2.length - 1, by omega⟩
      have := hlast l2 t2 m hm
      rw [← hcoeff m, List.getD_eq_default _ _ (by omega)] at this
      exact this rfl
    · have hlt : l2.length < l1.length := by omega
      obtain ⟨m, hm⟩ : ∃ m, l1.length = m + 1 := ⟨l1.length - 1, by omega⟩
      have := hlast l1 t1 m hm
      rw [hcoeff m, List.getD_eq_default _ _ (by omega)] at this
      exact this rfl
  apply List.ext_get hlen
  intro n hn1 hn2
  have := hcoeff n
  rwa [List.getD_eq_getElem l1 0 hn1, List.getD_eq_getElem l2 0 hn2] at this

theorem toPoly_degree_lt (p : Nat) (l : List Nat) :
    (toPoly p l).degree < (l.length : Nat) := by
  rw [Polynomial.degree_lt_iff_coeff_zero]
  intro m hm
  rw [toPoly_coeff, List.getD_eq_default _ _ (by exact_mod_cast hm)]
  simp

theorem toPoly_natDegree {p : Nat} {l : List Nat} (hl : allLt p l)
    (ht : trimZeros l = l) (hne : l ≠ []) :
    (toPoly p l).natDegree = l.length - 1 := by
  have hlen : 0 < l.length := List.length_pos.mpr hne
  have hcoeff : (toPoly p l).coeff (l.length - 1) ≠ 0 := by
    rw [toPoly_coeff]
    have hmem : l.getD (l.length - 1) 0 ∈ l := by
      rw [List.getD_eq_getElem l 0 (by omega)]
      exact List.getElem_mem _
    apply castNat_ne_zero (hl _ hmem)
    have := trimZeros_getLast?_ne_zero l
    rw [ht, List.getLast?_eq_getLast l hne] at this
    have hget : l.getD (l.length - 1) 0 = l.getLast hne := by
      rw [List.getD_eq_getElem l 0 (by omega), List.getLast_eq_getElem]
    rw [hget]
    intro hcon
    exact this (by rw [hcon])
  apply le_antisymm
  · rw [Polynomial.natDegree_le_iff_coeff_eq_zero]
    intro m hm
    rw [toPoly_coeff, List.getD_eq_default _ _ (by omega)]
    simp
  · exact Polynomial.le_natDegree_of_ne_zero hcoeff

theorem toPoly_ne_zero {p : Nat} {l : List Nat} (hl : allLt p l)
    (ht : trimZeros l = l) (hne : l ≠ []) : toPoly p l ≠ 0 := by
  intro h
  have hlen : 0 < l.length := List.length_pos.mpr hne
  have hcoeff := toPoly_coeff p l (l.length - 1)
  rw [h] at hcoeff
  have hmem : l.getD (l.length - 1) 0 ∈ l := by
    rw [List.getD_eq_getElem l 0 (by omega)]
    exact List.getElem_mem _
  have hlast : l.getD (l.length - 1) 0 ≠ 0 := by
    have := trimZeros_getLast?_ne_zero l
    rw [ht, List.getLast?_eq_getLast l hne] at this
    have hget : l.getD (l.length - 1) 0 = l.getLast hne := by
      rw [List.getD_eq_getElem l 0 (by omega), List.getLast_eq_getElem]
    rw [hget]
    intro hcon
    exact this (by rw [hcon])
  exact castNat_ne_zero (hl _ hmem) hlast (by rw [← hcoeff]; simp)

theorem addCoeffs_length (p : Nat) :
    ∀ xs ys : List Nat, (addCoeffs p xs ys).length = max xs.length ys.length := by
  intro xs
  induction xs with
  | nil =>
    intro ys
    induction ys with
    | nil => simp [addCoeffs]
    | cons y ys ih =>
      simp only [addCoeffs, List.length_cons, List.length_nil, ih]
      omega
  | cons x xs ih =>
    intro ys
    cases ys with
    | nil => simp [addCoeffs]
    | cons y ys =>
      simp only [addCoeffs, List.length_cons, ih]
      omega

theorem addCoeffs_allLt {p : Nat} (hp : 0 < p) :
    ∀ xs ys : List Nat, allLt p xs → allLt p (addCoeffs p xs ys) := by
  intro xs
  induction xs with
  | nil =>
    intro ys _
    induction ys with
    | nil => intro c hc; simp [addCoeffs] at hc
    | cons y ys ih =>
      intro c hc
      simp only [addCoeffs] at hc
      rcases List.mem_cons.mp hc with rfl | hc
      · exact feAdd_lt hp _ _
      · exact ih c hc
  | cons x xs ih =>
    intro ys hx
    cases ys with
    | nil => exact hx
    | cons y ys =>
      intro c hc
      simp only [addCoeffs] at hc
      rcases List.mem_cons.mp hc with rfl | hc
      · exact feAdd_lt hp _ _
      · exact ih ys (fun d hd => hx d (List.mem_cons_of_mem _ hd)) c hc

theorem addCoeffs_toPoly {p : Nat} (hsm : p < 2 ^ 32) :
    ∀ xs ys : List Nat, allLt p xs → allLt p ys →
      toPoly p (addCoeffs p xs ys) = toPoly p xs + toPoly p ys := by
  intro xs
  induction xs with
  | nil =>
    intro ys _ hy
    induction ys with
    | nil => simp [addCoeffs, toPoly_nil]
    | cons y ys ih =>
      have hy' : allLt p ys := fun d hd => hy d (List.mem_cons_of_mem _ hd)
      have hyp : y < p := hy y (List.mem_cons_self _ _)
      simp only [addCoeffs, toPoly_cons, toPoly_nil,
        ih hy', feAdd_cast hsm (show (0 : Nat) < p by omega) hyp]
      push_cast
      ring
  | cons x xs ih =>
    intro ys hx hy
    cases ys with
    | nil => simp [addCoeffs, toPoly_nil]
    | cons y ys =>
      have hx' : allLt p xs := fun d hd => hx d (List.mem_cons_of_mem _ hd)
      have hy' : allLt p ys := fun d hd => hy d (List.mem_cons_of_mem _ hd)
      simp only [addCoeffs, toPoly_cons, ih ys hx' hy',
        feAdd_cast hsm (hx x (List.mem_cons_self _ _)) (hy y (List.mem_cons_self _ _)),
        map_add]
      ring

theorem subCoeffs_allLt {p : Nat} (hp : 0 < p) :
    ∀ xs ys : List Nat, allLt p xs → allLt p (subCoeffs p xs ys) := by
  intro xs
  induction xs with
  | nil =>
    intro ys _
    induction ys with
    | nil => intro c hc; simp [subCoeffs] at hc
    | cons y ys ih =>
      intro c hc
      simp only [subCoeffs] at hc
      rcases List.mem_cons.mp hc with rfl | hc
      · exact feSub_lt hp _ _
      · exact ih c hc
  | cons x xs ih =>
    intro ys hx
    cases ys with
    | nil => exact hx
    | cons y ys =>
      intro c hc
      simp only [subCoeffs] at hc
      rcases List.mem_cons.mp hc with rfl | hc
      · exact feSub_lt hp _ _
      · exact ih ys (fun d hd => hx d (List.mem_cons_of_mem _ hd)) c hc

theorem subCoeffs_toPoly {p : Nat} (hsm : p < 2 ^ 32) :
    ∀ xs ys : List Nat, allLt p xs → allLt p ys →
      toPoly p (subCoeffs p xs ys) = toPoly p xs - toPoly p ys := by
  intro xs
  induction xs with
  | nil =>
    intro ys _ hy
    induction ys with
    | nil => simp [subCoeffs, toPoly_nil]
    | cons y ys ih =>
      have hy' : allLt p ys := fun d hd => hy d (List.mem_cons_of_mem _ hd)
      have hyp : y < p := hy y (List.mem_cons_self _ _)
      simp only [subCoeffs, toPoly_cons, toPoly_nil,
        ih hy', feSub_cast hsm (show (0 : Nat) < p by omega) hyp, map_sub, map_neg,
        map_zero]
      push_cast
      simp only [map_zero]
      ring
  | cons x xs ih =>
    intro ys hx hy
    cases ys with
    | nil => simp [subCoeffs, toPoly_nil]
    | cons y ys =>
      have hx' : allLt p xs := fun d hd => hx d (List.mem_cons_of_mem _ hd)
      have hy' : allLt p ys := fun d hd => hy d (List.mem_cons_of_mem _ hd)
      simp only [subCoeffs, toPoly_cons, ih ys hx' hy',
        feSub_cast hsm (hx x (List.mem_cons_self _ _)) (hy y (List.mem_cons_self _ _)),
        map_sub]
      ring

theorem map_feMul_allLt {p : Nat} (hp : 0 < p) (s : Nat) (l : List Nat) :
    allLt p (l.map (fun c => feMul p c s)) := by
  intro c hc
  rcases List.mem_map.mp hc with ⟨d, _, rfl⟩
  exact feMul_lt hp _ _

open Polynomial in
theorem map_feMul_toPoly (p s : Nat) (l : List Nat) :
    toPoly p (l.map (fun c => feMul p c s)) = C (s : ZMod p) * toPoly p l := by
  induction l with
  | nil => simp [toPoly_nil]
  | cons c rest ih =>
    simp only [List.map_cons, toPoly_cons, ih, feMul_cast, map_mul]
    ring

theorem horner_spec {p x : Nat} (hsm : p < 2 ^ 32) (hx : x < p) :
    ∀ l : List Nat, allLt p l →
      (l.reverse.foldl (fun result coef => feAdd p (feMul p result x) coef) 0) < p ∧
      (((l.reverse.foldl (fun result coef => feAdd p (feMul p result x) coef) 0 : Nat) :
          ZMod p) = (toPoly p l).eval (x : ZMod p)) := by
  intro l
  induction l with
  | nil =>
    intro _
    constructor
    · simp only [List.reverse_nil, List.foldl_nil]
      omega
    · simp [toPoly_nil]
  | cons c rest ih =>
    intro hl
    have hrest : allLt p rest := fun d hd => hl d (List.mem_cons_of_mem _ hd)
    have hc : c < p := hl c (List.mem_cons_self _ _)
    obtain ⟨ihlt, ihcast⟩ := ih hrest
    rw [List.reverse_cons, List.foldl_append]
    constructor
    · exact feAdd_lt (by omega) _ _
    · simp only [List.foldl_cons, List.foldl_nil]
      rw [feAdd_cast hsm (feMul_lt (by omega) _ _) hc, feMul_cast, ihcast, toPoly_cons]
      simp only [Polynomial.eval_add, Polynomial.eval_mul, Polynomial.eval_C,
        Polynomial.eval_X]
      ring

theorem evaluate_lt {p x : Nat} (hsm : p < 2 ^ 32) (hx : x < p) (q : Poly)
    (hl : allLt p q.coefficients) : Poly.evaluate p q x < p :=
  (horner_spec hsm hx q.coefficients hl).1

theorem evaluate_cast {p x : Nat} (hsm : p < 2 ^ 32) (hx : x < p) (q : Poly)
    (hl : allLt p q.coefficients) :
    ((Poly.evaluate p q x : Nat) : ZMod p) = (toPoly p q.coefficients).eval (x : ZMod p) :=
  (horner_spec hsm hx q.coefficients hl).2

theorem polyNew_wf {p : Nat} {coeffs : List Nat} (hl : allLt p coeffs) :
    PolyWF p (Poly.new coeffs) :=
  ⟨allLt_trimZeros hl, trimZeros_idem _, rfl⟩

theorem polyNew_toPoly (p : Nat) (coeffs : List Nat) :
    toPoly p (Poly.new coeffs).coefficients = toPoly p coeffs :=
  toPoly_trimZeros p coeffs

theorem polyZero_wf (p : Nat) : PolyWF p Poly.zero :=
  ⟨fun c hc => absurd hc (List.not_mem_nil c), rfl, rfl⟩

theorem wf_isZero_iff {p : Nat} {q : Poly} (hq : PolyWF p q) :
    q.isZero = true ↔ q.coefficients = [] := by
  obtain ⟨_, _, hd⟩ := hq
  rw [Poly.isZero, hd, degOf]
  cases hco : q.coefficients with
  | nil => simp
  | cons c rest =>
    constructor
    · intro h
      simp only [List.isEmpty_cons, Bool.false_eq_true, if_false, List.length_cons,
        beq_iff_eq] at h
      exfalso
      push_cast at h
      omega
    · intro h
      cases h

theorem wf_eq_zero {p : Nat} {q : Poly} (hq : PolyWF p q) (h : q.isZero = true) :
    q = Poly.zero := by
  have hc := (wf_isZero_iff hq).mp h
  obtain ⟨_, _, hd⟩ := hq
  cases q with
  | mk co de =>
    simp only at hc hd
    subst hc
    simp only [degOf, List.isEmpty_nil, if_pos] at hd
    rw [Poly.zero, hd]

theorem addAssign_spec {p : Nat} (hp : 0 < p) (hsm : p < 2 ^ 32) {a b : Poly}
    (ha : PolyWF p a) (hbl : allLt p b.coefficients)
    (hb : PolyWF p b ∨ b.isZero = false) :
    PolyWF p (Poly.addAssign p a b) ∧
      toPoly p (Poly.addAssign p a b).coefficients =
        toPoly p a.coefficients + toPoly p b.coefficients := by
  rw [Poly.addAssign]
  by_cases hz : b.isZero = true
  · have hbe : b.coefficients = [] := by
      rcases hb with hwf | hfalse
      · exact (wf_isZero_iff hwf).mp hz
      · rw [hz] at hfalse; cases hfalse
    rw [if_pos hz]
    exact ⟨ha, by rw [hbe, toPoly_nil, add_zero]⟩
  · rw [if_neg hz]
    exact ⟨polyNew_wf (addCoeffs_allLt hp _ _ ha.1),
      by rw [polyNew_toPoly, addCoeffs_toPoly hsm _ _ ha.1 hbl]⟩

open Polynomial in
theorem toPoly_set {p : Nat} (v : Nat) :
    ∀ (l : List Nat) (k : Nat), k < l.length →
      toPoly p (l.set k v) =
        toPoly p l + C ((v : ZMod p) - ((l.getD k 0 : Nat) : ZMod p)) * X ^ k := by
  intro l
  induction l with
  | nil => intro k hk; simp at hk
  | cons c rest ih =>
    intro k hk
    cases k with
    | zero =>
      simp only [List.set_cons_zero, toPoly_cons, List.getD_cons_zero, pow_zero,
        map_sub]
      ring
    | succ k =>
      have hk' : k < rest.length := by simpa using hk
      simp only [List.set_cons_succ, toPoly_cons, List.getD_cons_succ, ih k hk',
        pow_succ]
      ring

theorem set_allLt {p : Nat} {l : List Nat} (hl : allLt p l) {v : Nat} (hv : v < p)
    (k : Nat) : allLt p (l.set k v) := by
  intro c hc
  rcases List.mem_or_eq_of_mem_set hc with hc | rfl
  · exact hl c hc
  · exact hv

open Polynomial in
theorem mulInnerFrom_spec {p : Nat} (hp : 0 < p) (hsm : p < 2 ^ 32)
    (i a : Nat) :
    ∀ (ys : List Nat) (n : Nat) (prod : List Nat), allLt p prod →
      i + n + ys.length ≤ prod.length →
      ((List.enumFrom n ys).foldl
          (fun pr jb => pr.set (i + jb.1) (feAdd p (pr.getD (i + jb.1) 0) (feMul p a jb.2)))
          prod).length = prod.length ∧
      allLt p ((List.enumFrom n ys).foldl
          (fun pr jb => pr.set (i + jb.1) (feAdd p (pr.getD (i + jb.1) 0) (feMul p a jb.2)))
          prod) ∧
      toPoly p ((List.enumFrom n ys).foldl
          (fun pr jb => pr.set (i + jb.1) (feAdd p (pr.getD (i + jb.1) 0) (feMul p a jb.2)))
          prod) =
        toPoly p prod + C (a : ZMod p) * X ^ (i + n) * toPoly p ys := by
  intro ys
  induction ys with
  | nil =>
    intro n prod hprod _
    simp [List.enumFrom_nil, toPoly_nil, hprod]
  | cons y ys ih =>
    intro n prod hprod hlen
    have hidx : i + n < prod.length := by
      simp only [List.length_cons] at hlen
      omega
    have hcur : prod.getD (i + n) 0 < p := by
      rw [List.getD_eq_getElem prod 0 hidx]
      exact hprod _ (List.getElem_mem hidx)
    have hnew : feAdd p (prod.getD (i + n) 0) (feMul p a y) < p := feAdd_lt hp _ _
    have hprod1 : allLt p (prod.set (i + n) (feAdd p (prod.getD (i + n) 0) (feMul p a y))) :=
      set_allLt hprod hnew _
    have hlen1 : (prod.set (i + n) (feAdd p (prod.getD (i + n) 0) (feMul p a y))).length
        = prod.length := List.length_set _ _ _
    have hstep := ih (n + 1)
      (prod.set (i + n) (feAdd p (prod.getD (i + n) 0) (feMul p a y)))
      hprod1 (by rw [hlen1]; simp only [List.length_cons] at hlen; omega)
    rw [List.enumFrom_cons]
    simp only [List.foldl_cons]
    refine ⟨by rw [hstep.1, hlen1], hstep.2.1, ?_⟩
    rw [hstep.2.2, toPoly_set _ _ _ hidx,
      feAdd_cast hsm hcur (feMul_lt hp _ _), feMul_cast, toPoly_cons]
    simp only [add_sub_cancel_left, map_mul]
    ring

open Polynomial in
theorem mulOuterFrom_spec {p : Nat} (hp : 0 < p) (hsm : p < 2 ^ 32)
    (ys : List Nat) :
    ∀ (xs : List Nat) (n : Nat) (prod : List Nat), allLt p prod →
      n + xs.length + ys.length ≤ prod.length + 1 →
      ((List.enumFrom n xs).foldl
          (fun prod ia => if ia.2 = 0 then prod else mulInner p ia.1 ia.2 ys prod)
          prod).length = prod.length ∧
      allLt p ((List.enumFrom n xs).foldl
          (fun prod ia => if ia.2 = 0 then prod else mulInner p ia.1 ia.2 ys prod)
          prod) ∧
      toPoly p ((List.enumFrom n xs).foldl
          (fun prod ia => if ia.2 = 0 then prod else mulInner p ia.1 ia.2 ys prod)
          prod) =
        toPoly p prod + X ^ n * toPoly p xs * toPoly p ys := by
  intro xs
  induction xs with
  | nil =>
    intro n prod hprod _
    simp [List.enumFrom_nil, toPoly_nil, hprod]
  | cons x xs ih =>
    intro n prod hprod hlen
    rw [List.enumFrom_cons]
    simp only [List.foldl_cons, List.length_cons] at hlen ⊢
    by_cases hx0 : x = 0
    · rw [if_pos hx0]
      have hstep := ih (n + 1) prod hprod (by omega)
      refine ⟨hstep.1, hstep.2.1, ?_⟩
      rw [hstep.2.2, toPoly_cons, hx0]
      push_cast
      simp only [map_zero]
      ring
    · rw [if_neg hx0]
      have hinner := mulInnerFrom_spec hp hsm n x ys 0 prod hprod (by omega)
      rw [mulInner]
      have henum : ys.enum = List.enumFrom 0 ys := rfl
      rw [henum]
      have hstep := ih (n + 1) (List.foldl
          (fun pr jb => pr.set (n + jb.1) (feAdd p (pr.getD (n + jb.1) 0) (feMul p x jb.2)))
          prod (List.enumFrom 0 ys))
        hinner.2.1 (by rw [hinner.1]; omega)
      refine ⟨by rw [hstep.1, hinner.1], hstep.2.1, ?_⟩
      rw [hstep.2.2, hinner.2.2, toPoly_cons]
      ring

open Polynomial in
theorem mulCoeffs_spec {p : Nat} (hp : 0 < p) (hsm : p < 2 ^ 32)
    (xs ys : List Nat) :
    (mulCoeffs p xs ys).length = xs.length + ys.length - 1 ∧
    allLt p (mulCoeffs p xs ys) ∧
    toPoly p (mulCoeffs p xs ys) = toPoly p xs * toPoly p ys := by
  have hrep : allLt p (List.replicate (xs.length + ys.length - 1) 0) := by
    intro c hc
    rw [List.eq_of_mem_replicate hc]
    exact hp
  rw [mulCoeffs]
  cases xs with
  | nil =>
    refine ⟨?_, ?_, ?_⟩
    · simp only [List.enum_nil, List.foldl_nil, List.length_replicate, List.length_nil]
    · simp only [List.enum_nil, List.foldl_nil]
      exact hrep
    · simp only [List.enum_nil, List.foldl_nil, toPoly_replicate_zero, toPoly_nil,
        zero_mul]
  | cons x xs' =>
    have henum : (x :: xs').enum = List.enumFrom 0 (x :: xs') := rfl
    rw [henum]
    have h := mulOuterFrom_spec hp hsm ys (x :: xs') 0
      (List.replicate ((x :: xs').length + ys.length - 1) 0) hrep
      (by simp only [List.length_replicate, List.length_cons]; omega)
    refine ⟨by rw [h.1, List.length_replicate], h.2.1, ?_⟩
    rw [h.2.2, toPoly_replicate_zero, pow_zero, zero_add, one_mul]

theorem mulAssign_spec {p : Nat} (hp : 0 < p) (hsm : p < 2 ^ 32) {a b : Poly}
    (ha : PolyWF p a) (hb : PolyWF p b) :
    PolyWF p (Poly.mulAssign p a b) ∧
      toPoly p (Poly.mulAssign p a b).coefficients =
        toPoly p a.coefficients * toPoly p b.coefficients := by
  rw [Poly.mulAssign]
  by_cases haz : a.isZero = true
  · rw [if_pos haz]
    exact ⟨ha, by rw [(wf_isZero_iff ha).mp haz, toPoly_nil, zero_mul]⟩
  · by_cases hbz : b.isZero = true
    · rw [if_neg haz, if_pos hbz]
      exact ⟨polyZero_wf p, by
        rw [(wf_isZero_iff hb).mp hbz, toPoly_nil, mul_zero]
        exact toPoly_nil p⟩
    · rw [if_neg haz, if_neg hbz]
      obtain ⟨hlen, hall, htp⟩ := mulCoeffs_spec hp hsm a.coefficients b.coefficients
      exact ⟨polyNew_wf hall, by rw [polyNew_toPoly, htp]⟩

/-! ### `gen_polynomial_from_roots` -/

open Polynomial in
theorem linFactor_wf {p : Nat} (hp2 : 1 < p) (r : Nat) :
    PolyWF p (Poly.new [feNeg p r, feNew p 1]) ∧
      (Poly.new [feNeg p r, feNew p 1]).coefficients = [feNeg p r, 1] := by
  have h1 : feNew p 1 = 1 := Nat.mod_eq_of_lt hp2
  have htrim : trimZeros [feNeg p r, feNew p 1] = [feNeg p r, 1] := by
    rw [h1]
    show trimZeros [feNeg p r, 1] = [feNeg p r, 1]
    apply trimZeros_eq_self
    simp
  constructor
  · refine polyNew_wf ?_
    intro c hc
    rcases List.mem_cons.mp hc with rfl | hc
    · exact feNeg_lt (by omega) _
    · rcases List.mem_cons.mp hc with rfl | hc
      · rw [h1]; omega
      · exact absurd hc (List.not_mem_nil c)
  · show trimZeros [feNeg p r, feNew p 1] = _
    exact htrim

open Polynomial in
theorem linFactor_toPoly {p : Nat} (hp2 : 1 < p) {r : Nat} (hr : r < p) :
    toPoly p (Poly.new [feNeg p r, feNew p 1]).coefficients =
      X - C (r : ZMod p) := by
  rw [(linFactor_wf hp2 r).2, toPoly_cons, toPoly_cons, toPoly_nil, feNeg_cast hr]
  simp only [Nat.cast_one, map_one, map_neg]
  ring

open Polynomial in
theorem genRoots_fold_spec {p : Nat} (hp2 : 1 < p) (hsm : p < 2 ^ 32) :
    ∀ (roots : List Nat), allLt p roots → ∀ (acc : Poly), PolyWF p acc →
      PolyWF p (roots.foldl
        (fun q root => Poly.mulAssign p q (Poly.new [feNeg p root, feNew p 1])) acc) ∧
      toPoly p ((roots.foldl
        (fun q root => Poly.mulAssign p q (Poly.new [feNeg p root, feNew p 1])) acc).coefficients) =
        toPoly p acc.coefficients *
          (roots.map (fun r => X - C ((r : Nat) : ZMod p))).prod := by
  intro roots
  induction roots with
  | nil =>
    intro _ acc hacc
    simp only [List.foldl_nil, List.map_nil, List.prod_nil, mul_one]
    exact ⟨hacc, trivial⟩
  | cons r rs ih =>
    intro hall acc hacc
    have hr : r < p := hall r (List.mem_cons_self _ _)
    have hrs : allLt p rs := fun d hd => hall d (List.mem_cons_of_mem _ hd)
    have hfac := linFactor_wf (p := p) hp2 r
    have hstep := mulAssign_spec (by omega) hsm hacc hfac.1
    simp only [List.foldl_cons, List.map_cons, List.prod_cons]
    obtain ⟨ihwf, ihtp⟩ := ih hrs _ hstep.1
    refine ⟨ihwf, ?_⟩
    rw [ihtp, hstep.2, linFactor_toPoly hp2 hr]
    ring

/-- `gen_polynomial_from_roots` on the empty list is the zero polynomial
(degree sentinel `-1`), not the constant one. -/
theorem genFromRoots_nil (p : Nat) : genPolynomialFromRoots p [] = Poly.zero := rfl

open Polynomial in
theorem genFromRoots_spec {p : Nat} (hp2 : 1 < p) (hsm : p < 2 ^ 32)
    {roots : List Nat} (hall : allLt p roots) (hne0 : roots ≠ []) :
    PolyWF p (genPolynomialFromRoots p roots) ∧
      toPoly p (genPolynomialFromRoots p roots).coefficients =
        (roots.map (fun r => X - C ((r : Nat) : ZMod p))).prod := by
  cases hne : roots with
  | nil => exact absurd hne hne0
  | cons r rs =>
    subst hne
    rw [genPolynomialFromRoots, if_neg (by simp)]
    have hone : PolyWF p (Poly.new [feNew p 1]) := by
      apply polyNew_wf
      intro c hc
      rcases List.mem_cons.mp hc with rfl | hc
      · exact feNew_lt (by omega) 1
      · exact absurd hc (List.not_mem_nil c)
    have honep : toPoly p (Poly.new [feNew p 1]).coefficients = 1 := by
      have h1 : feNew p 1 = 1 := Nat.mod_eq_of_lt hp2
      have : trimZeros [feNew p 1] = [1] := by
        rw [h1]
        apply trimZeros_eq_self
        simp
      show toPoly p (trimZeros [feNew p 1]) = 1
      rw [this, toPoly_cons, toPoly_nil]
      simp only [Nat.cast_one, map_one, mul_zero, add_zero]
    obtain ⟨hwf, htp⟩ := genRoots_fold_spec hp2 hsm (r :: rs) hall _ hone
    exact ⟨hwf, by rw [htp, honep, one_mul]⟩

open Polynomial in
theorem prodLinear_monic {p : Nat} (hp2 : 1 < p) (roots : List Nat) :
    ((roots.map (fun r => X - C ((r : Nat) : ZMod p))).prod).Monic ∧
      ((roots.map (fun r => X - C ((r : Nat) : ZMod p))).prod).natDegree = roots.length := by
  haveI : Fact (1 < p) := ⟨hp2⟩
  induction roots with
  | nil => simp [monic_one]
  | cons r rs ih =>
    simp only [List.map_cons, List.prod_cons, List.length_cons]
    refine ⟨(monic_X_sub_C _).mul ih.1, ?_⟩
    rw [(monic_X_sub_C ((r : Nat) : ZMod p)).natDegree_mul ih.1, natDegree_X_sub_C, ih.2]
    omega

/-! ### `div_rem` -/

open Polynomial in
theorem toPoly_eq_sum (p : Nat) :
    ∀ l : List Nat, toPoly p l =
      ∑ i ∈ Finset.range l.length, C ((l.getD i 0 : Nat) : ZMod p) * X ^ i := by
  intro l
  induction l with
  | nil => simp [toPoly_nil]
  | cons c rest ih =>
    rw [toPoly_cons, List.length_cons, Finset.sum_range_succ', ih, Finset.mul_sum]
    simp only [List.getD_cons_succ, List.getD_cons_zero, pow_zero, mul_one, pow_succ]
    rw [add_comm]
    congr 1
    apply Finset.sum_congr rfl
    intro i _
    ring

open Polynomial in
theorem subMulAt_spec {p : Nat} (hp : 0 < p) (hsm : p < 2 ^ 32)
    (ratio shift : Nat) (bC : List Nat) :
    ∀ (m : Nat) (rem : List Nat), allLt p rem → shift + m ≤ rem.length →
      ((List.range m).foldl
          (fun r i => r.set (i + shift)
            (feSub p (r.getD (i + shift) 0) (feMul p ratio (bC.getD i 0)))) rem).length
        = rem.length ∧
      allLt p ((List.range m).foldl
          (fun r i => r.set (i + shift)
            (feSub p (r.getD (i + shift) 0) (feMul p ratio (bC.getD i 0)))) rem) ∧
      (∀ j, m + shift ≤ j →
        ((List.range m).foldl
          (fun r i => r.set (i + shift)
            (feSub p (r.getD (i + shift) 0) (feMul p ratio (bC.getD i 0)))) rem).getD j 0
          = rem.getD j 0) ∧
      toPoly p ((List.range m).foldl
          (fun r i => r.set (i + shift)
            (feSub p (r.getD (i + shift) 0) (feMul p ratio (bC.getD i 0)))) rem)
        = toPoly p rem - C ((ratio : Nat) : ZMod p) * X ^ shift *
            ∑ i ∈ Finset.range m, C ((bC.getD i 0 : Nat) : ZMod p) * X ^ i := by
  intro m
  induction m with
  | zero =>
    intro rem hrem _
    refine ⟨?_, ?_, ?_, ?_⟩
    · simp only [List.range_zero, List.foldl_nil]
    · simp only [List.range_zero, List.foldl_nil]
      exact hrem
    · intro j _
      simp only [List.range_zero, List.foldl_nil]
    · simp only [List.range_zero, List.foldl_nil, Finset.range_zero, Finset.sum_empty,
        mul_zero, sub_zero]
  | succ m ih =>
    intro rem hrem hlen
    obtain ⟨ihlen, ihall, ihpres, ihtp⟩ := ih rem hrem (by omega)
    rw [List.range_succ, List.foldl_append, List.foldl_cons, List.foldl_nil]
    set mid := (List.range m).foldl
      (fun r i => r.set (i + shift)
        (feSub p (r.getD (i + shift) 0) (feMul p ratio (bC.getD i 0)))) rem with hmid
    have hidx : m + shift < mid.length := by rw [ihlen]; omega
    have hcur : mid.getD (m + shift) 0 < p := by
      rw [List.getD_eq_getElem mid 0 hidx]
      exact ihall _ (List.getElem_mem hidx)
    refine ⟨?_, ?_, ?_, ?_⟩
    · rw [List.length_set, ihlen]
    · exact set_allLt ihall (feSub_lt hp _ _) _
    · intro j hj
      rw [List.getD_eq_getElem?_getD, List.getElem?_set_ne (by omega),
        ← List.getD_eq_getElem?_getD]
      exact ihpres j (by omega)
    · rw [toPoly_set _ _ _ hidx, ihtp,
        feSub_cast hsm hcur (feMul_lt hp _ _), feMul_cast, Finset.sum_range_succ]
      simp only [sub_sub_cancel_left, map_neg, map_mul]
      ring

open Polynomial in
theorem divRemLoop_spec {p : Nat} (hp : p.Prime) (hsm : p < 2 ^ 32)
    {bC : List Nat} (hball : allLt p bC) (hbtrim : trimZeros bC = bC)
    (hbne : bC ≠ []) :
    ∀ (fuel : Nat) (rem quot : List Nat),
      allLt p rem → trimZeros rem = rem → allLt p quot →
      degOf rem < ((bC.length : Int) - 1) + fuel →
      degOf rem < (quot.length : Int) + ((bC.length : Int) - 1) →
      allLt p (divRemLoop p bC ((bC.length : Int) - 1)
        (bC.getD (bC.length - 1) 0) fuel rem (degOf rem) quot).1 ∧
      allLt p (divRemLoop p bC ((bC.length : Int) - 1)
        (bC.getD (bC.length - 1) 0) fuel rem (degOf rem) quot).2 ∧
      trimZeros (divRemLoop p bC ((bC.length : Int) - 1)
        (bC.getD (bC.length - 1) 0) fuel rem (degOf rem) quot).2 =
        (divRemLoop p bC ((bC.length : Int) - 1)
          (bC.getD (bC.length - 1) 0) fuel rem (degOf rem) quot).2 ∧
      degOf (divRemLoop p bC ((bC.length : Int) - 1)
        (bC.getD (bC.length - 1) 0) fuel rem (degOf rem) quot).2 <
        (bC.length : Int) - 1 ∧
      toPoly p bC * toPoly p (divRemLoop p bC ((bC.length : Int) - 1)
          (bC.getD (bC.length - 1) 0) fuel rem (degOf rem) quot).1 +
        toPoly p (divRemLoop p bC ((bC.length : Int) - 1)
          (bC.getD (bC.length - 1) 0) fuel rem (degOf rem) quot).2 =
        toPoly p bC * toPoly p quot + toPoly p rem := by
  haveI : Fact p.Prime := ⟨hp⟩
  have hp0 : 0 < p := hp.pos
  have hlenB : 1 ≤ bC.length := List.length_pos.mpr hbne
  have hdenLt : bC.getD (bC.length - 1) 0 < p := by
    rw [List.getD_eq_getElem bC 0 (by omega)]
    exact hball _ (List.getElem_mem _)
  have hdenNe : bC.getD (bC.length - 1) 0 ≠ 0 := by
    have hlast := trimZeros_getLast?_ne_zero bC
    rw [hbtrim, List.getLast?_eq_getLast bC hbne] at hlast
    have : bC.getD (bC.length - 1) 0 = bC.getLast hbne := by
      rw [List.getD_eq_getElem bC 0 (by omega), List.getLast_eq_getElem]
    rw [this]
    intro hcon
    exact hlast (by rw [hcon])
  intro fuel
  induction fuel with
  | zero =>
    intro rem quot hrem htrim hquot hfuel _
    have hres : divRemLoop p bC ((bC.length : Int) - 1)
        (bC.getD (bC.length - 1) 0) 0 rem (degOf rem) quot = (quot, rem) := rfl
    rw [hres]
    refine ⟨hquot, hrem, htrim, ?_, rfl⟩
    show degOf rem < (bC.length : Int) - 1
    push_cast at hfuel
    omega
  | succ fuel ih =>
    intro rem quot hrem htrim hquot hfuel hql
    by_cases hcond : ((bC.length : Int) - 1 ≤ degOf rem ∧ degOf rem ≠ -1)
    · -- one division step, then the induction hypothesis
      have hremne : rem ≠ [] := by
        intro h
        rw [h] at hcond
        exact hcond.2 rfl
      have hL : 1 ≤ rem.length := List.length_pos.mpr hremne
      have hdeg : degOf rem = (rem.length : Int) - 1 := by
        rw [degOf, if_neg (by simp [hremne])]
      have hlenLe : bC.length ≤ rem.length := by
        have := hcond.1
        rw [hdeg] at this
        omega
      have htoNat : (degOf rem).toNat = rem.length - 1 := by
        rw [hdeg]
        omega
      have hshift : (degOf rem - ((bC.length : Int) - 1)).toNat =
          rem.length - bC.length := by
        rw [hdeg]
        omega
      -- the leading remainder coefficient
      have hleadLt : rem.getD (rem.length - 1) 0 < p := by
        rw [List.getD_eq_getElem rem 0 (by omega)]
        exact hrem _ (List.getElem_mem _)
      have hleadNe : rem.getD (rem.length - 1) 0 ≠ 0 := by
        have hlast := trimZeros_getLast?_ne_zero rem
        rw [htrim, List.getLast?_eq_getLast rem hremne] at hlast
        have : rem.getD (rem.length - 1) 0 = rem.getLast hremne := by
          rw [List.getD_eq_getElem rem 0 (by omega), List.getLast_eq_getElem]
        rw [this]
        intro hcon
        exact hlast (by rw [hcon])
      set lead := rem.getD (rem.length - 1) 0 with hleaddef
      set denLead := bC.getD (bC.length - 1) 0 with hdendef
      set ratio := feMul p lead (feInv p denLead) with hratdef
      have hratLt : ratio < p := feMul_lt hp0 _ _
      have hratCast : ((ratio : Nat) : ZMod p) =
          ((lead : Nat) : ZMod p) * (((denLead : Nat) : ZMod p))⁻¹ := by
        rw [hratdef, feMul_cast, feInv_cast hp hsm hdenLt hdenNe]
      set shift := rem.length - bC.length with hshiftdef
      have hshiftq : shift < quot.length := by
        rw [hdeg] at hql
        omega
      -- the updated quotient
      set quot' := quot.set shift (feAdd p (quot.getD shift 0) ratio) with hquotdef
      have hqcur : quot.getD shift 0 < p := by
        rw [List.getD_eq_getElem quot 0 hshiftq]
        exact hquot _ (List.getElem_mem _)
      have hquot' : allLt p quot' := set_allLt hquot (feAdd_lt hp0 _ _) _
      have hquotTp : toPoly p quot' = toPoly p quot +
          C ((ratio : Nat) : ZMod p) * X ^ shift := by
        rw [hquotdef, toPoly_set _ _ _ hshiftq,
          feAdd_cast hsm hqcur hratLt, add_sub_cancel_left]
      have hquotLen : quot'.length = quot.length := List.length_set _ _ _
      -- the updated remainder
      have hsub := subMulAt_spec hp0 hsm ratio shift bC ((bC.length - 1) + 1) rem
        hrem (by omega)
      set rem1 := (List.range ((bC.length - 1) + 1)).foldl
        (fun r i => r.set (i + shift)
          (feSub p (r.getD (i + shift) 0) (feMul p ratio (bC.getD i 0)))) rem
        with hrem1def
      obtain ⟨hr1len, hr1all, _, hr1tp⟩ := hsub
      have hm : (bC.length - 1) + 1 = bC.length := by omega
      have hr1tp' : toPoly p rem1 = toPoly p rem -
          C ((ratio : Nat) : ZMod p) * X ^ shift * toPoly p bC := by
        rw [hr1tp, hm, ← toPoly_eq_sum]
      -- the leading coefficient of `rem1` cancels
      have hr1ne : rem1 ≠ [] := by
        intro h
        rw [h] at hr1len
        simp at hr1len
        omega
      have htopcast : ((rem1.getD (rem.length - 1) 0 : Nat) : ZMod p) = 0 := by
        have hco := toPoly_coeff p rem1 (rem.length - 1)
        rw [hr1tp'] at hco
        have hmulco : (C ((ratio : Nat) : ZMod p) * X ^ shift *
            toPoly p bC).coeff (rem.length - 1) =
            ((ratio : Nat) : ZMod p) * (toPoly p bC).coeff (bC.length - 1) := by
          have harr : C ((ratio : Nat) : ZMod p) * X ^ shift * toPoly p bC =
              C ((ratio : Nat) : ZMod p) * (toPoly p bC * X ^ shift) := by
            ring
          rw [harr, Polynomial.coeff_C_mul, Polynomial.coeff_mul_X_pow',
            if_pos (by omega : shift ≤ rem.length - 1)]
          congr 2
          omega
        rw [Polynomial.coeff_sub, hmulco, toPoly_coeff, toPoly_coeff] at hco
        rw [← hco, hratCast, mul_assoc,
          inv_mul_cancel₀ (castNat_ne_zero hdenLt hdenNe), mul_one, sub_self]
      have htop : rem1.getD (rem.length - 1) 0 = 0 := by
        have hlt : rem1.getD (rem.length - 1) 0 < p := by
          rw [List.getD_eq_getElem rem1 0 (by rw [hr1len]; omega)]
          exact hr1all _ (List.getElem_mem _)
        exact castNat_inj hlt hp0 (by rw [htopcast]; simp)
      have hr1last : rem1.getLast? = some 0 := by
        rw [List.getLast?_eq_getLast rem1 hr1ne]
        congr 1
        rw [← htop, List.getD_eq_getElem rem1 0 (by rw [hr1len]; omega),
          List.getLast_eq_getElem]
        congr 1
        rw [hr1len]
      set rem' := trimZeros rem1 with hremdef'
      have hr'len : rem'.length < rem.length := by
        rw [hremdef', ← hr1len]
        exact trimZeros_length_lt hr1last
      have hr'all : allLt p rem' := allLt_trimZeros hr1all
      have hr'trim : trimZeros rem' = rem' := trimZeros_idem _
      have hr'tp : toPoly p rem' = toPoly p rem1 := toPoly_trimZeros p rem1
      have hr'deg : degOf rem' < degOf rem := by
        rw [hdeg, degOf]
        by_cases hre : rem'.isEmpty
        · rw [if_pos hre]
          omega
        · rw [if_neg hre]
          omega
      -- apply the induction hypothesis
      have hih := ih rem' quot' hr'all hr'trim hquot'
        (by omega) (by rw [hquotLen]; omega)
      -- reduce the loop one step
      have hstep : divRemLoop p bC ((bC.length : Int) - 1) denLead (fuel + 1) rem
          (degOf rem) quot =
          divRemLoop p bC ((bC.length : Int) - 1) denLead fuel rem' (degOf rem')
            quot' := by
        have hdenToNat : ((bC.length : Int) - 1).toNat = bC.length - 1 := by
          omega
        simp only [divRemLoop]
        rw [if_pos hcond, htoNat, hshift, hdenToNat]
        rfl
      rw [hstep]
      refine ⟨hih.1, hih.2.1, hih.2.2.1, hih.2.2.2.1, ?_⟩
      rw [hih.2.2.2.2, hquotTp, hr'tp, hr1tp']
      ring
    · simp only [divRemLoop, if_neg hcond]
      have hdeglt : degOf rem < (bC.length : Int) - 1 := by
        rcases not_and_or.mp hcond with h | h
        · omega
        · have : degOf rem = -1 := by
            by_contra hne
            exact h hne
          rw [this]
          omega
      exact ⟨hquot, hrem, htrim, hdeglt, trivial⟩

theorem wf_eq_of_toPoly_eq {p : Nat} (hp : 0 < p) {q1 q2 : Poly}
    (h1 : PolyWF p q1) (h2 : PolyWF p q2)
    (h : toPoly p q1.coefficients = toPoly p q2.coefficients) : q1 = q2 := by
  have hco := toPoly_inj hp h1.1 h2.1 h1.2.1 h2.2.1 h
  cases q1 with
  | mk co1 de1 =>
    cases q2 with
    | mk co2 de2 =>
      simp only at hco
      subst hco
      have hd1 := h1.2.2
      have hd2 := h2.2.2
      simp only at hd1 hd2
      rw [hd1, hd2]

theorem divRem_spec {p : Nat} (hp : p.Prime) (hsm : p < 2 ^ 32) {a b : Poly}
    (ha : PolyWF p a) (hb : PolyWF p b) (hbz : b.isZero = false) :
    ∃ q r, Poly.divRem p a b = some (q, r) ∧ PolyWF p q ∧ PolyWF p r ∧
      toPoly p b.coefficients * toPoly p q.coefficients + toPoly p r.coefficients
        = toPoly p a.coefficients ∧
      (r.isZero = false → r.degree < b.degree) := by
  have hp0 : 0 < p := hp.pos
  have hbne : b.coefficients ≠ [] := by
    intro h
    rw [(wf_isZero_iff hb).mpr h] at hbz
    cases hbz
  have hlenB : 1 ≤ b.coefficients.length := List.length_pos.mpr hbne
  have hbdeg : b.degree = (b.coefficients.length : Int) - 1 := by
    rw [hb.2.2, degOf, if_neg (by simp [hbne])]
  rw [Poly.divRem, if_neg (by rw [hbz]; simp)]
  by_cases hsmall : (a.isZero = true ∨ a.degree < b.degree)
  · rw [if_pos hsmall]
    refine ⟨Poly.zero, a, rfl, polyZero_wf p, ha, ?_, ?_⟩
    · show toPoly p b.coefficients * toPoly p ([] : List Nat) +
        toPoly p a.coefficients = toPoly p a.coefficients
      rw [toPoly_nil, mul_zero, zero_add]
    · intro haz
      rcases hsmall with h | h
      · rw [h] at haz; cases haz
      · exact h
  · rw [if_neg hsmall]
    push_neg at hsmall
    obtain ⟨hanz, hadeg⟩ := hsmall
    have hane : a.coefficients ≠ [] := by
      intro h
      exact hanz ((wf_isZero_iff ha).mpr h)
    have hlenA : 1 ≤ a.coefficients.length := List.length_pos.mpr hane
    have hadegEq : a.degree = (a.coefficients.length : Int) - 1 := by
      rw [ha.2.2, degOf, if_neg (by simp [hane])]
    have hlenLe : b.coefficients.length ≤ a.coefficients.length := by
      rw [hadegEq, hbdeg] at hadeg
      omega
    have hquot0 : allLt p (List.replicate (a.degree - b.degree + 1).toNat 0) := by
      intro c hc
      rw [List.eq_of_mem_replicate hc]
      exact hp0
    have hdg : degOf a.coefficients = (a.coefficients.length : Int) - 1 := by
      rw [← ha.2.2, hadegEq]
    have hloop := divRemLoop_spec hp hsm hb.1 hb.2.1 hbne (a.degree.toNat + 1)
      a.coefficients (List.replicate (a.degree - b.degree + 1).toNat 0)
      ha.1 ha.2.1 hquot0
      (by rw [hdg, hadegEq]; omega)
      (by rw [hdg, List.length_replicate, hadegEq, hbdeg]; omega)
    have hbtoNat : b.degree.toNat = b.coefficients.length - 1 := by
      rw [hbdeg]
      omega
    rw [← hbdeg, ← hbtoNat, ← ha.2.2] at hloop
    obtain ⟨hq1, hr1, hrtrim, hrdeg, hident⟩ := hloop
    refine ⟨_, _, rfl, polyNew_wf hq1, polyNew_wf hr1, ?_, ?_⟩
    · rw [polyNew_toPoly, polyNew_toPoly, hident, toPoly_replicate_zero, mul_zero,
        zero_add]
    · intro _
      show degOf (trimZeros _) < b.degree
      rw [hrtrim]
      exact hrdeg

/-- **C3.** For every well-formed polynomial dividend and every nonzero
well-formed divisor over a prime modulus `p < 2^32`, `div_rem` succeeds and
returns `(quotient, remainder)` with
`divisor * quotient + remainder == dividend` (computed by the code's own
`mul_assign`/`add_assign`), and whenever the remainder is nonzero its
degree is strictly below the divisor's degree. -/
theorem claim_C3_div_rem {p : Nat} (hp : p.Prime) (hsm : p < 2 ^ 32)
    {a b : Poly} (ha : PolyWF p a) (hb : PolyWF p b) (hbz : b.isZero = false) :
    ∃ q r, Poly.divRem p a b = some (q, r) ∧
      Poly.addAssign p (Poly.mulAssign p b q) r = a ∧
      (r.isZero = false → r.degree < b.degree) := by
  obtain ⟨q, r, heq, hq, hr, hident, hdeg⟩ := divRem_spec hp hsm ha hb hbz
  refine ⟨q, r, heq, ?_, hdeg⟩
  obtain ⟨hbqwf, hbqtp⟩ := mulAssign_spec hp.pos hsm hb hq
  obtain ⟨hsumwf, hsumtp⟩ := addAssign_spec hp.pos hsm hbqwf hr.1 (Or.inl hr)
  exact wf_eq_of_toPoly_eq hp.pos hsumwf ha (by rw [hsumtp, hbqtp, hident])

/-- Witness for C3 at modulus `7`,
dividend `2 + 5x + 3x²`, divisor `1 + x`. -/
theorem claim_C3_div_rem_witness :
    ∃ q r, Poly.divRem 7 (Poly.new [2, 5, 3]) (Poly.new [1, 1]) = some (q, r) ∧
      Poly.addAssign 7 (Poly.mulAssign 7 (Poly.new [1, 1]) q) r = Poly.new [2, 5, 3] ∧
      (r.isZero = false → r.degree < (Poly.new [1, 1]).degree) :=
  claim_C3_div_rem (by norm_num) (by norm_num) (by decide) (by decide) (by decide)

/-! ### The FRI folding step (`next_fri_polynomial`) -/

theorem everyOther_length : ∀ l : List Nat, (everyOther l).length = (l.length + 1) / 2
  | [] => rfl
  | [_] => by simp [everyOther]
  | _ :: _ :: rest => by
    simp only [everyOther, List.length_cons, everyOther_length rest]
    omega

theorem everyOther_getLast? : ∀ l : List Nat, l.length % 2 = 1 →
    (everyOther l).getLast? = l.getLast?
  | [], h => by simp at h
  | [_], _ => by simp [everyOther]
  | x :: y :: rest, h => by
    have hr : rest.length % 2 = 1 := by
      simp only [List.length_cons] at h
      omega
    have hrne : rest ≠ [] := by
      intro hcon
      rw [hcon] at hr
      simp at hr
    have hne : everyOther rest ≠ [] := by
      intro hcon
      have hl1 := everyOther_length rest
      rw [hcon] at hl1
      simp only [List.length_nil] at hl1
      have hl2 : 1 ≤ rest.length := List.length_pos.mpr hrne
      omega
    show (x :: everyOther rest).getLast? = _
    cases he : everyOther rest with
    | nil => exact absurd he hne
    | cons r rs =>
      rw [List.getLast?_cons_cons, ← he, everyOther_getLast? rest hr]
      cases rest with
      | nil => exact absurd rfl hrne
      | cons a as => rw [List.getLast?_cons_cons, List.getLast?_cons_cons]

theorem feAdd_zero_zero (p : Nat) : feAdd p 0 0 = 0 := by
  simp [feAdd, feNew]

theorem feAdd_zero_left {p y : Nat} (hsm : p < 2 ^ 32) (hy : y < p) :
    feAdd p 0 y = y := by
  have h1 : (0 + y) % U64 = y := by
    simp only [U64]
    omega
  simp only [feAdd, feNew, h1]
  exact Nat.mod_eq_of_lt hy

theorem addCoeffs_getD_high {p : Nat} :
    ∀ (xs ys : List Nat) (i : Nat), xs.length ≤ i →
      (addCoeffs p xs ys).getD i 0 = feAdd p 0 (ys.getD i 0) := by
  intro xs
  induction xs with
  | nil =>
    intro ys
    induction ys with
    | nil =>
      intro i _
      simp only [addCoeffs, List.getD_eq_getElem?_getD, List.getElem?_nil,
        Option.getD_none, feAdd_zero_zero]
    | cons y ys ih =>
      intro i _
      cases i with
      | zero => simp [addCoeffs]
      | succ i =>
        simp only [addCoeffs, List.getD_cons_succ]
        exact ih i (by simp)
  | cons x xs ih =>
    intro ys i hi
    cases ys with
    | nil =>
      simp only [addCoeffs]
      rw [List.getD_eq_default _ _ (by simp only [List.length_cons] at hi ⊢; omega),
        List.getD_eq_default _ _ (by simp), feAdd_zero_zero]
    | cons y ys =>
      cases i with
      | zero => simp only [List.length_cons] at hi; omega
      | succ i =>
        simp only [addCoeffs, List.getD_cons_succ]
        exact ih ys i (by simp only [List.length_cons] at hi; omega)

theorem everyOther_subset : ∀ (l : List Nat), ∀ c ∈ everyOther l, c ∈ l
  | [] => by intro c hc; exact absurd hc (List.not_mem_nil c)
  | [x] => by intro c hc; exact hc
  | x :: y :: rest => by
    intro c hc
    rcases List.mem_cons.mp hc with rfl | hc
    · exact List.mem_cons_self _ _
    · exact List.mem_cons_of_mem _
        (List.mem_cons_of_mem _ (everyOther_subset rest c hc))

theorem degOf_le_of_length_le {l : List Nat} {m : Nat} (h : l.length ≤ m) :
    degOf l ≤ (m : Int) - 1 := by
  rw [degOf]
  by_cases he : l.isEmpty
  · rw [if_pos he]
    omega
  · rw [if_neg he]
    omega

theorem getLast?_eq_some_getD {l : List Nat} (h : l ≠ []) :
    l.getLast? = some (l.getD (l.length - 1) 0) := by
  rw [List.getLast?_eq_getLast l h]
  congr 1
  rw [List.getD_eq_getElem l 0 (by
    have := List.length_pos.mpr h
    omega)]
  exact List.getLast_eq_getElem l h

theorem getD_top_eq_of_getLast?_eq {l1 l2 : List Nat} (h1 : l1 ≠ []) (h2 : l2 ≠ [])
    (h : l1.getLast? = l2.getLast?) :
    l1.getD (l1.length - 1) 0 = l2.getD (l2.length - 1) 0 := by
  rw [getLast?_eq_some_getD h1, getLast?_eq_some_getD h2] at h
  exact Option.some.inj h

/-- **C4 (amended).** Folding a well-formed polynomial of degree `d ≥ 0`
yields a polynomial whose tracked degree is at most `⌊d/2⌋`, with equality
whenever `d` is even.  (For odd `d` the degree can drop strictly below
`⌊d/2⌋` — see the counterexample.) -/
theorem claim_C4_fold_degree {p : Nat} (hsm : p < 2 ^ 32) {q : Poly}
    (hq : PolyWF p q) (hd : 0 ≤ q.degree) (beta : Nat) :
    (nextFriPolynomial p q beta).degree ≤ q.degree / 2 ∧
    (q.degree % 2 = 0 → (nextFriPolynomial p q beta).degree = q.degree / 2) := by
  have hne : q.coefficients ≠ [] := by
    intro h
    have hdd := hq.2.2
    rw [h] at hdd
    simp only [degOf, List.isEmpty_nil, if_pos] at hdd
    omega
  have hlen : 1 ≤ q.coefficients.length := List.length_pos.mpr hne
  have hdeg : q.degree = (q.coefficients.length : Int) - 1 := by
    rw [hq.2.2, degOf, if_neg (by simp [hne])]
  have hoddlen : (everyOther (q.coefficients.drop 1)).length =
      q.coefficients.length / 2 := by
    rw [everyOther_length, List.length_drop]
    omega
  have hevenlen : (everyOther q.coefficients).length =
      (q.coefficients.length + 1) / 2 := everyOther_length _
  have hoddlen' : (trimZeros (everyOther (q.coefficients.drop 1))).length ≤
      q.coefficients.length / 2 := by
    rw [← hoddlen]
    exact trimZeros_length_le _
  -- in the even-degree case the even part keeps the leading coefficient
  have heven_keeps : q.coefficients.length % 2 = 1 →
      trimZeros (everyOther q.coefficients) = everyOther q.coefficients ∧
      (everyOther q.coefficients).getD ((everyOther q.coefficients).length - 1) 0 =
        q.coefficients.getD (q.coefficients.length - 1) 0 ∧
      q.coefficients.getD (q.coefficients.length - 1) 0 ≠ 0 := by
    intro hql
    have hlast := trimZeros_getLast?_ne_zero q.coefficients
    rw [hq.2.1] at hlast
    have heol : (everyOther q.coefficients).getLast? = q.coefficients.getLast? :=
      everyOther_getLast? _ hql
    have hevne : everyOther q.coefficients ≠ [] := by
      intro hcon
      have := hevenlen
      rw [hcon] at this
      simp only [List.length_nil] at this
      omega
    have hkeep : trimZeros (everyOther q.coefficients) = everyOther q.coefficients := by
      apply trimZeros_eq_self
      rw [heol]
      exact hlast
    refine ⟨hkeep, getD_top_eq_of_getLast?_eq hevne hne heol, ?_⟩
    rw [getLast?_eq_some_getD hne] at hlast
    intro hcon
    exact hlast (by rw [hcon])
  rw [nextFriPolynomial, Poly.addAssign]
  by_cases hez : (Poly.new (everyOther q.coefficients)).isZero = true
  · -- the even part trimmed to zero: the scaled odd part is returned as-is;
    -- this can only happen for odd degree
    have hzcase : trimZeros (everyOther q.coefficients) = [] := by
      have hwf : PolyWF p (Poly.new (everyOther q.coefficients)) :=
        polyNew_wf (fun c hc => hq.1 c (everyOther_subset _ c hc))
      exact (wf_isZero_iff hwf).mp hez
    have hnotodd : q.coefficients.length % 2 = 0 := by
      by_contra hcon
      have hql : q.coefficients.length % 2 = 1 := by omega
      obtain ⟨hkeep, _, _⟩ := heven_keeps hql
      rw [hkeep] at hzcase
      have := hevenlen
      rw [hzcase] at this
      simp only [List.length_nil] at this
      omega
    rw [if_pos hez]
    have hodd : (Poly.scalarMul p (Poly.new (everyOther (q.coefficients.drop 1)))
        beta).degree = degOf (trimZeros (everyOther (q.coefficients.drop 1))) := rfl
    constructor
    · rw [hodd, hdeg]
      have hb := degOf_le_of_length_le hoddlen'
      omega
    · intro hpar
      exfalso
      rw [hdeg] at hpar
      omega
  · rw [if_neg hez]
    -- the generic branch: trimmed sum of the scaled odd part and the even part
    have haddlen : (addCoeffs p
        ((trimZeros (everyOther (q.coefficients.drop 1))).map (fun c => feMul p c beta))
        (trimZeros (everyOther q.coefficients))).length =
        max ((trimZeros (everyOther (q.coefficients.drop 1))).map
          (fun c => feMul p c beta)).length
          (trimZeros (everyOther q.coefficients)).length := addCoeffs_length p _ _
    have hmaplen : ((trimZeros (everyOther (q.coefficients.drop 1))).map
        (fun c => feMul p c beta)).length ≤ q.coefficients.length / 2 := by
      rw [List.length_map]
      exact hoddlen'
    have hevlen' : (trimZeros (everyOther q.coefficients)).length ≤
        (q.coefficients.length + 1) / 2 := by
      rw [← hevenlen]
      exact trimZeros_length_le _
    constructor
    · show degOf (trimZeros (addCoeffs p
        ((trimZeros (everyOther (q.coefficients.drop 1))).map (fun c => feMul p c beta))
        (trimZeros (everyOther q.coefficients)))) ≤ q.degree / 2
      rw [hdeg]
      have htl := trimZeros_length_le (addCoeffs p
        ((trimZeros (everyOther (q.coefficients.drop 1))).map (fun c => feMul p c beta))
        (trimZeros (everyOther q.coefficients)))
      rw [haddlen] at htl
      have hb := degOf_le_of_length_le htl
      have hmx : max ((trimZeros (everyOther (q.coefficients.drop 1))).map
          (fun c => feMul p c beta)).length
          (trimZeros (everyOther q.coefficients)).length ≤
          (q.coefficients.length + 1) / 2 := by
        omega
      have hb2 := degOf_le_of_length_le (le_trans htl hmx)
      omega
    · intro hpar
      show degOf (trimZeros (addCoeffs p
        ((trimZeros (everyOther (q.coefficients.drop 1))).map (fun c => feMul p c beta))
        (trimZeros (everyOther q.coefficients)))) = q.degree / 2
      have hql : q.coefficients.length % 2 = 1 := by
        rw [hdeg] at hpar
        omega
      obtain ⟨hkeep, htopeq, htopne⟩ := heven_keeps hql
      -- the sum vector has the even part's length and its top entry is the
      -- original leading coefficient
      have hATlen : (addCoeffs p
          ((trimZeros (everyOther (q.coefficients.drop 1))).map (fun c => feMul p c beta))
          (trimZeros (everyOther q.coefficients))).length =
          (q.coefficients.length + 1) / 2 := by
        rw [haddlen, hkeep, hevenlen]
        have := hmaplen
        omega
      have hATne : (addCoeffs p
          ((trimZeros (everyOther (q.coefficients.drop 1))).map (fun c => feMul p c beta))
          (trimZeros (everyOther q.coefficients))) ≠ [] := by
        intro hcon
        rw [hcon] at hATlen
        simp only [List.length_nil] at hATlen
        omega
      have htopidx : ((trimZeros (everyOther (q.coefficients.drop 1))).map
          (fun c => feMul p c beta)).length ≤ (q.coefficients.length + 1) / 2 - 1 := by
        rw [List.length_map]
        omega
      have htopval : (addCoeffs p
          ((trimZeros (everyOther (q.coefficients.drop 1))).map (fun c => feMul p c beta))
          (trimZeros (everyOther q.coefficients))).getD
            ((q.coefficients.length + 1) / 2 - 1) 0 =
          q.coefficients.getD (q.coefficients.length - 1) 0 := by
        rw [addCoeffs_getD_high _ _ _ htopidx, hkeep]
        have hidx : (q.coefficients.length + 1) / 2 - 1 =
            (everyOther q.coefficients).length - 1 := by
          rw [hevenlen]
        rw [hidx, htopeq]
        apply feAdd_zero_left hsm
        have hidx2 : q.coefficients.length - 1 < q.coefficients.length := by omega
        rw [List.getD_eq_getElem q.coefficients 0 hidx2]
        exact hq.1 _ (List.getElem_mem hidx2)
      have hATlast : (addCoeffs p
          ((trimZeros (everyOther (q.coefficients.drop 1))).map (fun c => feMul p c beta))
          (trimZeros (everyOther q.coefficients))).getLast? ≠ some 0 := by
        rw [getLast?_eq_some_getD hATne, hATlen, htopval]
        intro hcon
        exact htopne (Option.some.inj hcon)
      have hATkeep : trimZeros (addCoeffs p
          ((trimZeros (everyOther (q.coefficients.drop 1))).map (fun c => feMul p c beta))
          (trimZeros (everyOther q.coefficients))) =
          addCoeffs p
          ((trimZeros (everyOther (q.coefficients.drop 1))).map (fun c => feMul p c beta))
          (trimZeros (everyOther q.coefficients)) := trimZeros_eq_self _ hATlast
      rw [hATkeep, degOf, if_neg (by simpa [List.drop_one] using hATne), hATlen, hdeg]
      have : 1 ≤ (q.coefficients.length + 1) / 2 := by omega
      push_cast
      omega

/-- Witness for C4 at modulus `7`: folding `1 + x⁴` (degree 4) with `β = 2`
gives degree exactly `2`. -/
theorem claim_C4_fold_degree_witness :
    (nextFriPolynomial 7 (Poly.new [1, 0, 0, 0, 1]) 2).degree ≤
      (Poly.new [1, 0, 0, 0, 1]).degree / 2 ∧
    ((Poly.new [1, 0, 0, 0, 1]).degree % 2 = 0 →
      (nextFriPolynomial 7 (Poly.new [1, 0, 0, 0, 1]) 2).degree =
        (Poly.new [1, 0, 0, 0, 1]).degree / 2) :=
  claim_C4_fold_degree (by norm_num) (by decide) (by decide) 2

/-- **C4 is false as stated**: over modulus `7`, folding the degree-3
polynomial `6x² + x³` with `β = 1` yields the zero polynomial
(degree `-1`), not a polynomial of degree `⌊3/2⌋ = 1`. -/
theorem claim_C4_counterexample :
    (Poly.new [0, 0, 6, 1]).degree = 3 ∧
    (nextFriPolynomial 7 (Poly.new [0, 0, 6, 1]) 1).degree = -1 ∧
    ¬((nextFriPolynomial 7 (Poly.new [0, 0, 6, 1]) 1).degree =
      (Poly.new [0, 0, 6, 1]).degree / 2) := by decide

/-! ### The FRI commit loop (`fri_commit`) -/

theorem nextFriDomain_length (p : Nat) (d : List Nat) :
    (nextFriDomain p d).length = d.length / 2 := by
  rw [nextFriDomain, List.length_map, List.length_take]
  omega

/-- Whatever the fold coefficient, folding at most halves the stored
coefficient vector (no well-formedness of the input needed). -/
theorem nextFriPoly_bounds (p : Nat) (q : Poly) (beta : Nat) :
    (nextFriPolynomial p q beta).coefficients.length ≤
      (q.coefficients.length + 1) / 2 ∧
    (nextFriPolynomial p q beta).degree ≤
      (((q.coefficients.length + 1) / 2 : Nat) : Int) - 1 := by
  have hoddlen : (everyOther (q.coefficients.drop 1)).length =
      q.coefficients.length / 2 := by
    rw [everyOther_length, List.length_drop]
    omega
  have hevenlen : (everyOther q.coefficients).length =
      (q.coefficients.length + 1) / 2 := everyOther_length _
  rw [nextFriPolynomial, Poly.addAssign]
  by_cases hez : (Poly.new (everyOther q.coefficients)).isZero = true
  · rw [if_pos hez]
    have hlen : (Poly.scalarMul p (Poly.new (everyOther (q.coefficients.drop 1)))
        beta).coefficients.length =
        (trimZeros (everyOther (q.coefficients.drop 1))).length :=
      List.length_map _ _
    have hb : (trimZeros (everyOther (q.coefficients.drop 1))).length ≤
        q.coefficients.length / 2 := by
      rw [← hoddlen]
      exact trimZeros_length_le _
    constructor
    · rw [hlen]
      omega
    · show degOf (trimZeros (everyOther (q.coefficients.drop 1))) ≤ _
      have := degOf_le_of_length_le hb
      omega
  · rw [if_neg hez]
    have hb1 : ((trimZeros (everyOther (q.coefficients.drop 1))).map
        (fun c => feMul p c beta)).length ≤ q.coefficients.length / 2 := by
      rw [List.length_map, ← hoddlen]
      exact trimZeros_length_le _
    have hb2 : (trimZeros (everyOther q.coefficients)).length ≤
        (q.coefficients.length + 1) / 2 := by
      rw [← hevenlen]
      exact trimZeros_length_le _
    have hlen : (Poly.new (addCoeffs p
        ((trimZeros (everyOther (q.coefficients.drop 1))).map (fun c => feMul p c beta))
        (trimZeros (everyOther q.coefficients)))).coefficients.length ≤
        (q.coefficients.length + 1) / 2 := by
      show (trimZeros (addCoeffs p _ _)).length ≤ _
      have ht := trimZeros_length_le (addCoeffs p
        ((trimZeros (everyOther (q.coefficients.drop 1))).map (fun c => feMul p c beta))
        (trimZeros (everyOther q.coefficients)))
      rw [addCoeffs_length] at ht
      omega
    refine ⟨hlen, ?_⟩
    show degOf (trimZeros (addCoeffs p _ _)) ≤ _
    have ht := trimZeros_length_le (addCoeffs p
      ((trimZeros (everyOther (q.coefficients.drop 1))).map (fun c => feMul p c beta))
      (trimZeros (everyOther q.coefficients)))
    rw [addCoeffs_length] at ht
    have := degOf_le_of_length_le (l := trimZeros (addCoeffs p
      ((trimZeros (everyOther (q.coefficients.drop 1))).map (fun c => feMul p c beta))
      (trimZeros (everyOther q.coefficients)))) (m := (q.coefficients.length + 1) / 2)
      (by omega)
    exact this

/-- **C1 (amended).** Over any modulus, committing a well-formed degree-3
polynomial over a length-8 evaluation domain performs at most **2** fold
rounds, whatever the channel returns: the layer evaluation vectors have
lengths `8, 4` or `8, 4, 2`, a length-1 vector never occurs, and the final
polynomial sent as a constant has degree at most 0. -/
theorem claim_C1_fri_commit_layers {p : Nat} {q : Poly} (hq : PolyWF p q)
    (hd : q.degree = 3) {domain : List Nat} (hdom : domain.length = 8)
    (betas : Nat → Nat) :
    ((friCommitLayers p q domain betas).1.map List.length = [8, 4] ∨
     (friCommitLayers p q domain betas).1.map List.length = [8, 4, 2]) ∧
    (friCommitLayers p q domain betas).2.degree ≤ 0 := by
  have hqlen : q.coefficients.length = 4 := by
    have hd' := hq.2.2
    rw [hd] at hd'
    rw [degOf] at hd'
    by_cases he : q.coefficients.isEmpty
    · rw [if_pos he] at hd'
      omega
    · rw [if_neg he] at hd'
      omega
  obtain ⟨hq1len, hq1deg⟩ := nextFriPoly_bounds p q (betas 0)
  rw [hqlen] at hq1len hq1deg
  norm_num at hq1len hq1deg
  have hd1len : (nextFriDomain p domain).length = 4 := by
    rw [nextFriDomain_length, hdom]
  have he1len : ((nextFriDomain p domain).map
      (fun x => Poly.evaluate p (nextFriPolynomial p q (betas 0)) x)).length = 4 := by
    rw [List.length_map, hd1len]
  have hfuel : q.degree.toNat + 1 = 4 := by rw [hd]; rfl
  have hmain : friCommitLayers p q domain betas =
      ((domain.map (fun x => Poly.evaluate p q x)) ::
        (friCommitLoop p betas 4 q domain 0).1,
       (friCommitLoop p betas 4 q domain 0).2) := by
    rw [friCommitLayers, hfuel]
  have hstep1 : friCommitLoop p betas 4 q domain 0 =
      (((nextFriDomain p domain).map
          (fun x => Poly.evaluate p (nextFriPolynomial p q (betas 0)) x)) ::
        (friCommitLoop p betas 3 (nextFriPolynomial p q (betas 0))
          (nextFriDomain p domain) 1).1,
       (friCommitLoop p betas 3 (nextFriPolynomial p q (betas 0))
          (nextFriDomain p domain) 1).2) := by
    show (if 1 ≤ q.degree then _ else _) = _
    rw [if_pos (show (1 : Int) ≤ q.degree by rw [hd]; norm_num)]
    rfl
  by_cases h1 : 1 ≤ (nextFriPolynomial p q (betas 0)).degree
  · -- a second fold happens and then the loop stops
    have hq1deg' : (nextFriPolynomial p q (betas 0)).degree = 1 := by omega
    obtain ⟨hq2len, hq2deg⟩ :=
      nextFriPoly_bounds p (nextFriPolynomial p q (betas 0)) (betas 1)
    have hq2deg' : (nextFriPolynomial p (nextFriPolynomial p q (betas 0))
        (betas 1)).degree ≤ 0 := by
      have hb : ((nextFriPolynomial p q (betas 0)).coefficients.length + 1) / 2 ≤ 1 := by
        omega
      omega
    have hstep2 : friCommitLoop p betas 3 (nextFriPolynomial p q (betas 0))
        (nextFriDomain p domain) 1 =
        (((nextFriDomain p (nextFriDomain p domain)).map
            (fun x => Poly.evaluate p (nextFriPolynomial p
              (nextFriPolynomial p q (betas 0)) (betas 1)) x)) ::
          (friCommitLoop p betas 2
            (nextFriPolynomial p (nextFriPolynomial p q (betas 0)) (betas 1))
            (nextFriDomain p (nextFriDomain p domain)) 2).1,
         (friCommitLoop p betas 2
            (nextFriPolynomial p (nextFriPolynomial p q (betas 0)) (betas 1))
            (nextFriDomain p (nextFriDomain p domain)) 2).2) := by
      show (if 1 ≤ (nextFriPolynomial p q (betas 0)).degree then _ else _) = _
      rw [if_pos h1]
      rfl
    have hstep3 : friCommitLoop p betas 2
        (nextFriPolynomial p (nextFriPolynomial p q (betas 0)) (betas 1))
        (nextFriDomain p (nextFriDomain p domain)) 2 =
        ([], nextFriPolynomial p (nextFriPolynomial p q (betas 0)) (betas 1)) := by
      show (if 1 ≤ (nextFriPolynomial p (nextFriPolynomial p q (betas 0))
        (betas 1)).degree then _ else _) = _
      rw [if_neg (by omega)]
    rw [hmain, hstep1, hstep2, hstep3]
    constructor
    · right
      show List.map List.length
        ((domain.map (fun x => Poly.evaluate p q x)) ::
         ((nextFriDomain p domain).map
            (fun x => Poly.evaluate p (nextFriPolynomial p q (betas 0)) x)) ::
         ((nextFriDomain p (nextFriDomain p domain)).map
            (fun x => Poly.evaluate p
              (nextFriPolynomial p (nextFriPolynomial p q (betas 0)) (betas 1)) x)) ::
         []) = [8, 4, 2]
      simp only [List.map_cons, List.map_nil, List.length_map]
      rw [hdom, hd1len, nextFriDomain_length, hd1len]
    · show (nextFriPolynomial p (nextFriPolynomial p q (betas 0)) (betas 1)).degree ≤ 0
      exact hq2deg'
  · -- the loop stops after the first fold
    have hstep2 : friCommitLoop p betas 3 (nextFriPolynomial p q (betas 0))
        (nextFriDomain p domain) 1 = ([], nextFriPolynomial p q (betas 0)) := by
      show (if 1 ≤ (nextFriPolynomial p q (betas 0)).degree then _ else _) = _
      rw [if_neg h1]
    rw [hmain, hstep1, hstep2]
    constructor
    · left
      show List.map List.length
        ((domain.map (fun x => Poly.evaluate p q x)) ::
         ((nextFriDomain p domain).map
            (fun x => Poly.evaluate p (nextFriPolynomial p q (betas 0)) x)) ::
         []) = [8, 4]
      simp only [List.map_cons, List.map_nil, List.length_map]
      rw [hdom, hd1len]
    · show (nextFriPolynomial p q (betas 0)).degree ≤ 0
      omega

/-- Witness for C1 at modulus `7`: committing `x³` over a length-8 domain
with all channel values `1`. -/
theorem claim_C1_fri_commit_layers_witness :
    ((friCommitLayers 7 (Poly.new [0, 0, 0, 1]) [1, 2, 3, 4, 5, 6, 1, 2]
        (fun _ => 1)).1.map List.length = [8, 4] ∨
     (friCommitLayers 7 (Poly.new [0, 0, 0, 1]) [1, 2, 3, 4, 5, 6, 1, 2]
        (fun _ => 1)).1.map List.length = [8, 4, 2]) ∧
    (friCommitLayers 7 (Poly.new [0, 0, 0, 1]) [1, 2, 3, 4, 5, 6, 1, 2]
        (fun _ => 1)).2.degree ≤ 0 :=
  claim_C1_fri_commit_layers (by decide) (by decide) (by decide) (fun _ => 1)

/-- **C1 is false as stated**: the spec claims three fold rounds with layer
lengths `8 → 4 → 2 → 1`, but committing the degree-3 polynomial `x³` over a
length-8 domain produces layer vectors of lengths `8, 4, 2` only — the loop
`while poly.degree >= 1` stops before a length-1 layer is ever built. -/
theorem claim_C1_counterexample :
    (friCommitLayers 7 (Poly.new [0, 0, 0, 1]) [1, 2, 3, 4, 5, 6, 1, 2]
        (fun _ => 1)).1.map List.length = [8, 4, 2] ∧
    ¬((friCommitLayers 7 (Poly.new [0, 0, 0, 1]) [1, 2, 3, 4, 5, 6, 1, 2]
        (fun _ => 1)).1.map List.length = [8, 4, 2, 1]) := by decide

/-! ### Claims C5, C6, C8 -/

/-- **C5 (code_bug).** `Channel::receive_random_int` computes
`(state + min) % range` with `range = max - min + 1` and never adds `min`
back, so the result lies in `[0, range)` instead of the documented
`[min, max]`: with state `4` and requested range `[2, 3]` the drawn value
is `0 < min`. -/
theorem claim_C5_receive_random_int_out_of_range :
    receiveRandomIntNum 4 2 3 = 0 ∧
    (Chan.receiveRandomInt (fun s => s) (fun _ => 4) Chan.new 2 3 true).1 = 0 ∧
    ¬(2 ≤ (Chan.receiveRandomInt (fun s => s) (fun _ => 4) Chan.new 2 3 true).1) := by
  decide

theorem fePowAux_e_zero (p : Nat) (fuel base result : Nat) :
    fePowAux p fuel base result 0 = result := by
  cases fuel with
  | zero => rfl
  | succ fuel => simp [fePowAux]

/-- With base `0` and a positive exponent, the square-and-multiply loop
returns `0` whatever the accumulator holds when it starts. -/
theorem fePowAux_base_zero (p : Nat) :
    ∀ fuel e result, 1 ≤ e → e ≤ fuel → fePowAux p fuel 0 result e = 0 := by
  intro fuel
  induction fuel with
  | zero => intro e result h1 h2; omega
  | succ fuel ih =>
    intro e result h1 h2
    rw [fePowAux, if_neg (by omega)]
    have hbase : 0 * 0 % U64 % p = 0 := by simp
    rw [hbase]
    by_cases he1 : e = 1
    · subst he1
      have : (if 1 % 2 = 1 then result * 0 % U64 % p else result) = 0 := by
        rw [if_pos (by norm_num)]
        simp
      rw [this]
      exact fePowAux_e_zero p fuel 0 0
    · have h2' : 1 ≤ e / 2 := by omega
      have h3 : e / 2 ≤ fuel := by omega
      exact ih (e / 2) _ h2' h3

/-- **C6 (code_bug).** `FieldElement::inverse` is `pow(MODULUS - 2)` guarded
only by `assert!(MODULUS > 2)`: called on `0` it silently returns `0` — a
value that is not an inverse of anything — instead of signalling an error as
§4.1 of the spec requires. -/
theorem claim_C6_inverse_of_zero {p : Nat} (hp : 2 < p) :
    feInv p 0 = 0 ∧ feMul p (feInv p 0) 0 ≠ 1 := by
  have h0 : feInv p 0 = 0 := by
    rw [feInv, fePow]
    exact fePowAux_base_zero p (p - 2) (p - 2) 1 (by omega) le_rfl
  refine ⟨h0, ?_⟩
  rw [h0]
  show feNew p (0 * 0 % p) ≠ 1
  simp [feNew]

/-- Witness for C6 at the concrete modulus `7`. -/
theorem claim_C6_inverse_of_zero_witness :
    feInv 7 0 = 0 ∧ feMul 7 (feInv 7 0) 0 ≠ 1 :=
  claim_C6_inverse_of_zero (by norm_num)

/-- **C8 (code_bug).** `Polynomial::scalar_mul` multiplies the stored
coefficients in place but never calls `update_degree`: scaling the constant
polynomial `1` by the scalar `0` leaves the untrimmed vector `[0]` with
`degree` still `0`, a value that breaks the trimmed-representation
invariant — `is_zero()` answers `false` on it although it evaluates to `0`
everywhere. -/
theorem claim_C8_scalar_mul_breaks_invariant :
    PolyWF 7 (Poly.new [1]) ∧
    Poly.scalarMul 7 (Poly.new [1]) 0 = ⟨[0], 0⟩ ∧
    ¬ PolyWF 7 (Poly.scalarMul 7 (Poly.new [1]) 0) ∧
    (Poly.scalarMul 7 (Poly.new [1]) 0).isZero = false ∧
    Poly.evaluate 7 (Poly.scalarMul 7 (Poly.new [1]) 0) 3 = 0 := by
  decide

/-! ### Claim C2: channel determinism -/

theorem chanStep_det {H : String → String} {parse : String → Nat} {p : Nat}
    {c : Chan} {call : ChanCall} {c₁ c₂ : Chan} {o₁ o₂ : Option Nat}
    (h₁ : ChanStep H parse p c call c₁ o₁)
    (h₂ : ChanStep H parse p c call c₂ o₂) : c₁ = c₂ ∧ o₁ = o₂ := by
  cases h₁ <;> cases h₂ <;> exact ⟨rfl, rfl⟩

theorem chanRun_det {H : String → String} {parse : String → Nat} {p : Nat}
    {c : Chan} {calls : List ChanCall} {c₁ : Chan} {outs₁ : List (Option Nat)}
    (h₁ : ChanRun H parse p c calls c₁ outs₁) :
    ∀ c₂ outs₂, ChanRun H parse p c calls c₂ outs₂ →
      c₁ = c₂ ∧ outs₁ = outs₂ := by
  induction h₁ with
  | nil c =>
    intro c₂ outs₂ h₂
    cases h₂
    exact ⟨rfl, rfl⟩
  | cons c call c' out calls c'' outs hstep hrun ih =>
    intro c₂ outs₂ h₂
    cases h₂ with
    | cons _ _ c₂' out₂ _ _ outs₂' hstep₂ hrun₂ =>
      obtain ⟨hc, ho⟩ := chanStep_det hstep hstep₂
      subst hc
      obtain ⟨hc'', houts⟩ := ih c₂ outs₂' hrun₂
      exact ⟨hc'', by rw [ho, houts]⟩

/-- **C2 (confirmed).** The Fiat-Shamir channel is deterministic: two
channels driven from the same starting state through the same ordered
sequence of `send` / `receive_random_*` calls with identical arguments (and
the same hash and hex-parse functions) end in identical states, produce
identical derived values, and record identical `proof` transcripts. -/
theorem claim_C2_channel_deterministic (H : String → String)
    (parse : String → Nat) (p : Nat) {c : Chan} {calls : List ChanCall}
    {c₁ c₂ : Chan} {outs₁ outs₂ : List (Option Nat)}
    (h₁ : ChanRun H parse p c calls c₁ outs₁)
    (h₂ : ChanRun H parse p c calls c₂ outs₂) :
    c₁ = c₂ ∧ outs₁ = outs₂ ∧ c₁.proof = c₂.proof := by
  obtain ⟨hc, ho⟩ := chanRun_det h₁ c₂ outs₂ h₂
  exact ⟨hc, ho, by rw [hc]⟩

/-- Witness for C2: two runs of a single `send` from a fresh channel. -/
theorem claim_C2_channel_deterministic_witness :
    Chan.send (fun s => s) Chan.new [1, 2] = Chan.send (fun s => s) Chan.new [1, 2] ∧
    ([none] : List (Option Nat)) = [none] ∧
    (Chan.send (fun s => s) Chan.new [1, 2]).proof =
      (Chan.send (fun s => s) Chan.new [1, 2]).proof :=
  claim_C2_channel_deterministic (fun s => s) (fun _ => 0) 7
    (ChanRun.cons _ _ _ _ _ _ _ (ChanStep.send _ _) (ChanRun.nil _))
    (ChanRun.cons _ _ _ _ _ _ _ (ChanStep.send _ _) (ChanRun.nil _))

/-! ### Claim C7: the verifier's query loop aborts early -/

/-- **C7 (code_bug).** §7 of the spec requires verification to collect all
check failures without aborting early, but the query loop of `verify_fri`
returns `false` the moment one query's `verify_fri_layers` fails: if the
first query fails, the result is `false` after a single channel
interaction, whatever number of remaining queries was requested — they are
never examined.  (`verify_fri_layers` rests on `MerkleTree::validate`,
which does not exist in the sources; it is abstracted as `layersCheck`.) -/
theorem claim_C7_verify_fri_early_abort (H : String → String)
    (parse : String → Nat) (maxIndex : Nat) (layersCheck : Nat → Chan → Bool)
    (c : Chan)
    (h : layersCheck (Chan.receiveRandomInt H parse c 0 maxIndex true).1
      (Chan.receiveRandomInt H parse c 0 maxIndex true).2 = false)
    (n : Nat) :
    verifyFriQueryLoop H parse maxIndex layersCheck (n + 1) c =
      (false, (Chan.receiveRandomInt H parse c 0 maxIndex true).2) := by
  show (if layersCheck (Chan.receiveRandomInt H parse c 0 maxIndex true).1
      (Chan.receiveRandomInt H parse c 0 maxIndex true).2 = true then
      verifyFriQueryLoop H parse maxIndex layersCheck n
        (Chan.receiveRandomInt H parse c 0 maxIndex true).2
    else (false, (Chan.receiveRandomInt H parse c 0 maxIndex true).2)) =
    (false, (Chan.receiveRandomInt H parse c 0 maxIndex true).2)
  rw [if_neg (by rw [h]; exact Bool.false_ne_true)]

/-- Witness for C7: five requested queries, an always-failing layer check —
the loop stops after the first. -/
theorem claim_C7_verify_fri_early_abort_witness :
    verifyFriQueryLoop (fun s => s) (fun _ => 0) 3 (fun _ _ => false) 5 Chan.new =
      (false, (Chan.receiveRandomInt (fun s => s) (fun _ => 0) Chan.new 0 3 true).2) :=
  claim_C7_verify_fri_early_abort (fun s => s) (fun _ => 0) 3 (fun _ _ => false)
    Chan.new rfl 4

/-! ### Claim C10: `gen_polynomial_from_roots` -/

/-- **C10 (confirmed).** `gen_polynomial_from_roots` returns the zero
polynomial on an empty root list; on `n` (reduced) roots it returns a
polynomial of degree exactly `n` whose leading coefficient is `1`. -/
theorem claim_C10_gen_polynomial_from_roots {p : Nat} (hp2 : 1 < p)
    (hsm : p < 2 ^ 32) {roots : List Nat} (hall : allLt p roots) :
    (roots = [] → genPolynomialFromRoots p roots = Poly.zero) ∧
    (roots ≠ [] →
      (genPolynomialFromRoots p roots).degree = (roots.length : Int) ∧
      (genPolynomialFromRoots p roots).leadingCoefficient = some 1) := by
  haveI : Fact (1 < p) := ⟨hp2⟩
  refine ⟨fun h => by rw [h]; rfl, fun hne => ?_⟩
  obtain ⟨hwf, htp⟩ := genFromRoots_spec hp2 hsm hall hne
  obtain ⟨hmon, hdeg⟩ := prodLinear_monic hp2 (p := p) roots
  have hne0 : toPoly p (genPolynomialFromRoots p roots).coefficients ≠ 0 := by
    rw [htp]
    exact hmon.ne_zero
  have hcne : (genPolynomialFromRoots p roots).coefficients ≠ [] := by
    intro h
    rw [h, toPoly_nil] at hne0
    exact hne0 rfl
  have hnd : (toPoly p (genPolynomialFromRoots p roots).coefficients).natDegree =
      (genPolynomialFromRoots p roots).coefficients.length - 1 :=
    toPoly_natDegree hwf.1 hwf.2.1 hcne
  rw [htp, hdeg] at hnd
  have hpos : 0 < (genPolynomialFromRoots p roots).coefficients.length :=
    List.length_pos.mpr hcne
  have hlen : (genPolynomialFromRoots p roots).coefficients.length =
      roots.length + 1 := by omega
  have hdegfield : (genPolynomialFromRoots p roots).degree = (roots.length : Int) := by
    rw [hwf.2.2, degOf, if_neg (by simpa using hcne), hlen]
    push_cast
    ring
  refine ⟨hdegfield, ?_⟩
  have hiz : (genPolynomialFromRoots p roots).isZero = false := by
    rw [Poly.isZero, hdegfield]
    exact beq_eq_false_iff_ne.mpr (by omega)
  rw [Poly.leadingCoefficient, if_neg (by rw [hiz]; exact Bool.false_ne_true)]
  have htopcast : (((genPolynomialFromRoots p roots).coefficients.getD
      (roots.length) 0 : Nat) : ZMod p) = 1 := by
    have hc := toPoly_coeff p (genPolynomialFromRoots p roots).coefficients roots.length
    rw [htp] at hc
    rw [← hc, ← hdeg, Polynomial.coeff_natDegree]
    exact hmon
  have hmem : (genPolynomialFromRoots p roots).coefficients.getD roots.length 0 ∈
      (genPolynomialFromRoots p roots).coefficients := by
    rw [List.getD_eq_getElem _ 0 (by omega)]
    exact List.getElem_mem _
  have htoNat : (genPolynomialFromRoots p roots).degree.toNat = roots.length := by
    rw [hdegfield]
    exact Int.toNat_natCast _
  rw [htoNat]
  exact congrArg some (castNat_inj (hwf.1 _ hmem) hp2 (by rw [htopcast]; simp))

/-- Witness for C10: three roots in `F₇` (the `test_gen_polynomial_from_roots`
vector). -/
theorem claim_C10_gen_polynomial_from_roots_witness :
    (([] : List Nat) = [] → genPolynomialFromRoots 7 [] = Poly.zero) ∧
    (([1, 2, 3] : List Nat) ≠ [] →
      (genPolynomialFromRoots 7 [1, 2, 3]).degree = (([1, 2, 3] : List Nat).length : Int) ∧
      (genPolynomialFromRoots 7 [1, 2, 3]).leadingCoefficient = some 1) :=
  ⟨(@claim_C10_gen_polynomial_from_roots 7 (by norm_num) (by norm_num)
      [] (by decide)).1,
   (@claim_C10_gen_polynomial_from_roots 7 (by norm_num) (by norm_num)
      [1, 2, 3] (by decide)).2⟩

/-! ### Claim C9: Lagrange interpolation round-trip -/

theorem mapM_eq_map {α β : Type} (f : α → Option β) (E : α → β) :
    ∀ l : List α, (∀ a ∈ l, f a = some (E a)) → l.mapM f = some (l.map E) := by
  intro l
  induction l with
  | nil => intro _; rfl
  | cons a l ih =>
    intro h
    rw [List.mapM_cons, h a (List.mem_cons_self a l),
      ih (fun x hx => h x (List.mem_cons_of_mem a hx))]
    rfl

theorem getD_lt_of_allLt {p : Nat} (hp : 0 < p) {xs : List Nat}
    (hall : allLt p xs) (k : Nat) : xs.getD k 0 < p := by
  by_cases h : k < xs.length
  · rw [List.getD_eq_getElem xs 0 h]
    exact hall _ (List.getElem_mem _)
  · rw [List.getD_eq_default xs 0 (by omega)]
    exact hp

theorem map_getD_range' (xs : List Nat) :
    ∀ b a, a + b ≤ xs.length →
      (List.range' a b).map (fun j => xs.getD j 0) = (xs.drop a).take b := by
  intro b
  induction b with
  | zero => intro a _; simp
  | succ b ih =>
    intro a h
    rw [List.range'_succ, List.map_cons, ih (a + 1) (by omega)]
    have ha : a < xs.length := by omega
    rw [List.getD_eq_getElem xs 0 ha, List.drop_eq_getElem_cons ha]
    rfl

open Polynomial in
/-- The `denom` fold of `gen_lagrange_polynomials`, over an arbitrary index
list: it stays reduced and its image in `ZMod p` is the running product of
the node differences (skipped indices contribute a factor `1`). -/
theorem denomFold_cast {p : Nat} (hsm : p < 2 ^ 32) (xs : List Nat)
    (hall : allLt p xs) (i : Nat) :
    ∀ (l : List Nat) (acc : Nat), acc < p →
      (l.foldl (fun denom j => if i = j then denom
        else feMul p denom (feSub p (xs.getD i 0) (xs.getD j 0))) acc) < p ∧
      ((l.foldl (fun denom j => if i = j then denom
        else feMul p denom (feSub p (xs.getD i 0) (xs.getD j 0))) acc : Nat) : ZMod p) =
        (acc : ZMod p) * ((l.map (fun j => if i = j then (1 : ZMod p)
          else ((xs.getD i 0 : Nat) : ZMod p) - ((xs.getD j 0 : Nat) : ZMod p))).prod) := by
  intro l
  induction l with
  | nil =>
    intro acc hacc
    exact ⟨hacc, by simp⟩
  | cons j l ih =>
    intro acc hacc
    have hp : 0 < p := by omega
    rw [List.foldl_cons, List.map_cons, List.prod_cons]
    by_cases hij : i = j
    · rw [if_pos hij, if_pos hij]
      obtain ⟨h1, h2⟩ := ih acc hacc
      exact ⟨h1, by rw [h2]; ring⟩
    · rw [if_neg hij, if_neg hij]
      obtain ⟨h1, h2⟩ := ih (feMul p acc (feSub p (xs.getD i 0) (xs.getD j 0)))
        (feMul_lt hp _ _)
      refine ⟨h1, ?_⟩
      rw [h2, feMul_cast,
        feSub_cast hsm (getD_lt_of_allLt hp hall i) (getD_lt_of_allLt hp hall j)]
      ring

open Polynomial in
theorem genLagrangeDenom_cast {p : Nat} (hp2 : 1 < p) (hsm : p < 2 ^ 32)
    (xs : List Nat) (hall : allLt p xs) (i : Nat) :
    genLagrangeDenom p xs i < p ∧
    ((genLagrangeDenom p xs i : Nat) : ZMod p) =
      ((List.range xs.length).map (fun j => if i = j then (1 : ZMod p)
        else ((xs.getD i 0 : Nat) : ZMod p) - ((xs.getD j 0 : Nat) : ZMod p))).prod := by
  obtain ⟨h1, h2⟩ := denomFold_cast hsm xs hall i (List.range xs.length) 1 hp2
  refine ⟨h1, ?_⟩
  unfold genLagrangeDenom
  rw [h2]
  simp

open Polynomial in
/-- Splitting the skip-`i` node-difference product over `range n` into the
product over the node list with index `i` erased. -/
theorem rangeProd_eq_eraseIdx_prod {p : Nat} (xs : List Nat) (i : Nat)
    (hi : i < xs.length) :
    ((List.range xs.length).map (fun j => if i = j then (1 : ZMod p)
      else ((xs.getD i 0 : Nat) : ZMod p) - ((xs.getD j 0 : Nat) : ZMod p))).prod =
    ((xs.eraseIdx i).map
      (fun r => ((xs.getD i 0 : Nat) : ZMod p) - ((r : Nat) : ZMod p))).prod := by
  have hsplit : List.range xs.length =
      List.range' 0 i ++ List.range' i (xs.length - i) := by
    rw [List.range_eq_range']
    have hap := List.range'_append 0 i (xs.length - i) 1
    simp only [one_mul, Nat.zero_add] at hap
    conv_lhs => rw [show xs.length = xs.length - i + i from by omega]
    exact hap.symm
  have hmid : List.range' i (xs.length - i) =
      i :: List.range' (i + 1) (xs.length - i - 1) := by
    have h : xs.length - i = (xs.length - i - 1) + 1 := by omega
    conv_lhs => rw [h]
    rw [List.range'_succ]
  have hfirst : (List.range' 0 i).map (fun j => if i = j then (1 : ZMod p)
      else ((xs.getD i 0 : Nat) : ZMod p) - ((xs.getD j 0 : Nat) : ZMod p)) =
      (xs.take i).map (fun r => ((xs.getD i 0 : Nat) : ZMod p) - ((r : Nat) : ZMod p)) := by
    rw [List.map_congr_left (g := fun j =>
        ((xs.getD i 0 : Nat) : ZMod p) - ((xs.getD j 0 : Nat) : ZMod p))
      (fun j hj => if_neg (by
        have := List.mem_range'_1.mp hj
        omega))]
    rw [show (fun j => ((xs.getD i 0 : Nat) : ZMod p) - ((xs.getD j 0 : Nat) : ZMod p)) =
      (fun r => ((xs.getD i 0 : Nat) : ZMod p) - ((r : Nat) : ZMod p)) ∘
        (fun j => xs.getD j 0) from rfl]
    rw [← List.map_map, map_getD_range' xs i 0 (by omega), List.drop_zero]
  have hlast : (List.range' (i + 1) (xs.length - i - 1)).map
      (fun j => if i = j then (1 : ZMod p)
        else ((xs.getD i 0 : Nat) : ZMod p) - ((xs.getD j 0 : Nat) : ZMod p)) =
      (xs.drop (i + 1)).map
        (fun r => ((xs.getD i 0 : Nat) : ZMod p) - ((r : Nat) : ZMod p)) := by
    rw [List.map_congr_left (g := fun j =>
        ((xs.getD i 0 : Nat) : ZMod p) - ((xs.getD j 0 : Nat) : ZMod p))
      (fun j hj => if_neg (by
        have := List.mem_range'_1.mp hj
        omega))]
    rw [show (fun j => ((xs.getD i 0 : Nat) : ZMod p) - ((xs.getD j 0 : Nat) : ZMod p)) =
      (fun r => ((xs.getD i 0 : Nat) : ZMod p) - ((r : Nat) : ZMod p)) ∘
        (fun j => xs.getD j 0) from rfl]
    rw [← List.map_map, map_getD_range' xs (xs.length - i - 1) (i + 1) (by omega),
      List.take_of_length_le (by rw [List.length_drop]; omega)]
  rw [hsplit, List.map_append, List.prod_append, hfirst, hmid, List.map_cons,
    List.prod_cons, if_pos rfl, hlast, List.eraseIdx_eq_take_drop_succ,
    List.map_append, List.prod_append]
  ring

open Polynomial in
/-- The linear-factor product over all nodes splits off the factor at
index `i`. -/
theorem prodLinear_eraseIdx {p : Nat} (xs : List Nat) (i : Nat)
    (hi : i < xs.length) :
    (xs.map (fun r => X - C ((r : Nat) : ZMod p))).prod =
    (X - C ((xs.getD i 0 : Nat) : ZMod p)) *
      ((xs.eraseIdx i).map (fun r => X - C ((r : Nat) : ZMod p))).prod := by
  have hx : xs = xs.take i ++ xs[i] :: xs.drop (i + 1) := by
    conv_lhs => rw [← List.take_append_drop i xs]
    rw [List.drop_eq_getElem_cons hi]
  rw [List.getD_eq_getElem xs 0 hi]
  conv_lhs => rw [hx]
  rw [List.eraseIdx_eq_take_drop_succ, List.map_append, List.map_append,
    List.map_cons, List.prod_append, List.prod_append, List.prod_cons]
  ring

open Polynomial in
/-- What `scalar_mul` guarantees without any nonzero assumption on the
scalar: reduced coefficients, a `degree` field that still answers `is_zero`
correctly enough for `add_assign`, and the expected `toPoly` image. -/
theorem scalarMul_ok {p : Nat} (hp : 0 < p) {q : Poly}
    (hq : PolyWF p q ∨ q.isZero = false) (s : Nat) :
    allLt p (Poly.scalarMul p q s).coefficients ∧
    (PolyWF p (Poly.scalarMul p q s) ∨ (Poly.scalarMul p q s).isZero = false) ∧
    toPoly p (Poly.scalarMul p q s).coefficients =
      C ((s : Nat) : ZMod p) * toPoly p q.coefficients := by
  refine ⟨map_feMul_allLt hp s _, ?_, map_feMul_toPoly p s _⟩
  rcases hq with hwf | hz
  · by_cases hz : q.isZero = true
    · left
      rw [wf_eq_zero hwf hz]
      exact polyZero_wf p
    · right
      show q.isZero = false
      simpa using hz
  · right
    show q.isZero = false
    exact hz

open Polynomial in
/-- For each node index, `div_rem` of the Vandermonde polynomial by the
linear factor at that node succeeds with zero remainder, and the quotient
is characterised by `(X - xᵢ) * li = Z`. -/
theorem lagrangeEntry_spec {p : Nat} (hp : p.Prime) (hsm : p < 2 ^ 32)
    {xs : List Nat} (hall : allLt p xs) {i : Nat} (hi : i < xs.length) :
    ∃ li rem : Poly,
      Poly.divRem p (genPolynomialFromRoots p xs)
        (genPolynomialFromRoots p [xs.getD i 0]) = some (li, rem) ∧
      rem.isZero = true ∧ PolyWF p li ∧
      (X - C ((xs.getD i 0 : Nat) : ZMod p)) * toPoly p li.coefficients =
        (xs.map (fun r => X - C ((r : Nat) : ZMod p))).prod := by
  haveI : Fact p.Prime := ⟨hp⟩
  have hp2 : 1 < p := hp.one_lt
  haveI : Fact (1 < p) := ⟨hp2⟩
  have hp0 : 0 < p := hp.pos
  have hne : xs ≠ [] := by
    intro h
    rw [h] at hi
    simp at hi
  have hxival : xs.getD i 0 < p := getD_lt_of_allLt hp0 hall i
  have hmemi : xs.getD i 0 ∈ xs := by
    rw [List.getD_eq_getElem xs 0 hi]
    exact List.getElem_mem _
  obtain ⟨hzwf, hzt⟩ := genFromRoots_spec hp2 hsm hall hne
  obtain ⟨hdwf, hdt⟩ := @genFromRoots_spec p hp2 hsm [xs.getD i 0]
    (fun c hc => by
      rcases List.mem_singleton.mp hc with rfl
      exact hxival) (by simp)
  have hdt' : toPoly p (genPolynomialFromRoots p [xs.getD i 0]).coefficients =
      X - C ((xs.getD i 0 : Nat) : ZMod p) := by
    rw [hdt]
    simp
  have hd0 : toPoly p (genPolynomialFromRoots p [xs.getD i 0]).coefficients ≠ 0 := by
    rw [hdt']
    exact (monic_X_sub_C _).ne_zero
  have hdz : (genPolynomialFromRoots p [xs.getD i 0]).isZero = false := by
    have hne' : ¬ ((genPolynomialFromRoots p [xs.getD i 0]).isZero = true) := by
      intro hb
      exact hd0 (by rw [(wf_isZero_iff hdwf).mp hb, toPoly_nil])
    simpa using hne'
  have hdcne : (genPolynomialFromRoots p [xs.getD i 0]).coefficients ≠ [] := by
    intro h
    exact hd0 (by rw [h, toPoly_nil])
  have hdlen : (genPolynomialFromRoots p [xs.getD i 0]).coefficients.length = 2 := by
    have hnd := toPoly_natDegree hdwf.1 hdwf.2.1 hdcne
    rw [hdt', natDegree_X_sub_C] at hnd
    have := List.length_pos.mpr hdcne
    omega
  have hddeg : (genPolynomialFromRoots p [xs.getD i 0]).degree = 1 := by
    rw [hdwf.2.2, degOf, if_neg (by simpa using hdcne), hdlen]
    norm_num
  have hPeval : Polynomial.eval ((xs.getD i 0 : Nat) : ZMod p)
      ((xs.map (fun r => X - C ((r : Nat) : ZMod p))).prod) = 0 := by
    rw [eval_list_prod]
    apply List.prod_eq_zero
    refine List.mem_map.mpr ⟨X - C ((xs.getD i 0 : Nat) : ZMod p),
      List.mem_map.mpr ⟨xs.getD i 0, hmemi, rfl⟩, by simp⟩
  obtain ⟨li, rem, hsome, hliwf, hremwf, heq, hbound⟩ :=
    divRem_spec hp hsm hzwf hdwf hdz
  have hremz : rem.isZero = true := by
    by_contra hrz
    have hrz' : rem.isZero = false := by
      cases hb : rem.isZero
      · rfl
      · exact absurd hb hrz
    have hrd := hbound hrz'
    rw [hddeg] at hrd
    have hrcne : rem.coefficients ≠ [] := by
      intro h
      exact absurd ((wf_isZero_iff hremwf).mpr h) (by rw [hrz']; simp)
    have hrdeg := hremwf.2.2
    rw [degOf, if_neg (by simpa using hrcne)] at hrdeg
    have hrlen := List.length_pos.mpr hrcne
    have hrlen1 : rem.coefficients.length = 1 := by omega
    obtain ⟨c, hc⟩ : ∃ c, rem.coefficients = [c] := by
      cases hco : rem.coefficients with
      | nil => exact absurd hco hrcne
      | cons c rest =>
        refine ⟨c, ?_⟩
        rw [hco] at hrlen1
        simp only [List.length_cons] at hrlen1
        have : rest = [] := List.length_eq_zero.mp (by omega)
        rw [this]
    have hcne : c ≠ 0 := by
      intro h0
      have htr := hremwf.2.1
      rw [hc, h0] at htr
      simp [trimZeros] at htr
    have hclt : c < p := hremwf.1 c (by rw [hc]; exact List.mem_cons_self c [])
    have heval := congrArg (Polynomial.eval ((xs.getD i 0 : Nat) : ZMod p)) heq
    rw [hzt] at heval
    simp only [eval_add, eval_mul] at heval
    rw [hdt', hPeval, hc] at heval
    simp only [eval_sub, eval_X, eval_C, sub_self, zero_mul, zero_add] at heval
    rw [toPoly_cons, toPoly_nil] at heval
    simp only [eval_add, eval_mul, eval_C, eval_X, mul_zero, add_zero] at heval
    exact castNat_ne_zero hclt hcne heval
  refine ⟨li, rem, hsome, hremz, hliwf, ?_⟩
  have hrem0 : rem = Poly.zero := wf_eq_zero hremwf hremz
  rw [hrem0] at heq
  have : toPoly p (Poly.zero).coefficients = 0 := toPoly_nil p
  rw [this, add_zero, hdt', hzt] at heq
  exact heq

open Polynomial in
/-- `gen_lagrange_polynomials_parallel` succeeds on reduced nodes and
returns, at index `i`, `inverse(denomᵢ) · ∏ over the other nodes of (X - xⱼ)`
(with `scalar_mul`'s untrimmed representation). -/
theorem genLagrangePolys_spec {p : Nat} (hp : p.Prime) (hsm : p < 2 ^ 32)
    {xs : List Nat} (hall : allLt p xs) (hne : xs ≠ []) :
    ∃ l : List Poly, genLagrangePolys p xs = some l ∧ l.length = xs.length ∧
      ∀ i, i < xs.length →
        (PolyWF p (l.getD i Poly.zero) ∨ (l.getD i Poly.zero).isZero = false) ∧
        toPoly p (l.getD i Poly.zero).coefficients =
          C ((feInv p (genLagrangeDenom p xs i) : Nat) : ZMod p) *
            ((xs.eraseIdx i).map (fun r => X - C ((r : Nat) : ZMod p))).prod := by
  haveI : Fact p.Prime := ⟨hp⟩
  haveI : Fact (1 < p) := ⟨hp.one_lt⟩
  have hn0 : xs.length ≠ 0 := fun h => hne (List.length_eq_zero.mp h)
  refine ⟨(List.range xs.length).map (fun i =>
      match Poly.divRem p (genPolynomialFromRoots p xs)
          (genPolynomialFromRoots p [xs.getD i 0]) with
      | none => Poly.zero
      | some lr => Poly.scalarMul p lr.1 (feInv p (genLagrangeDenom p xs i))),
    ?_, ?_, ?_⟩
  · rw [genLagrangePolys, if_neg hn0]
    apply mapM_eq_map
    intro i hmem
    obtain ⟨li, rem, hsome, hremz, _, _⟩ :=
      lagrangeEntry_spec hp hsm hall (List.mem_range.mp hmem)
    simp only [hsome]
    rw [if_pos hremz]
  · rw [List.length_map, List.length_range]
  · intro i hi
    have hget : ((List.range xs.length).map (fun i =>
        match Poly.divRem p (genPolynomialFromRoots p xs)
            (genPolynomialFromRoots p [xs.getD i 0]) with
        | none => Poly.zero
        | some lr => Poly.scalarMul p lr.1
            (feInv p (genLagrangeDenom p xs i)))).getD i Poly.zero =
        (match Poly.divRem p (genPolynomialFromRoots p xs)
            (genPolynomialFromRoots p [xs.getD i 0]) with
        | none => Poly.zero
        | some lr => Poly.scalarMul p lr.1
            (feInv p (genLagrangeDenom p xs i))) := by
      rw [List.getD_eq_getElem _ _ (by
        rw [List.length_map, List.length_range]
        exact hi), List.getElem_map, List.getElem_range]
    obtain ⟨li, rem, hsome, hremz, hliwf, hlit⟩ :=
      lagrangeEntry_spec hp hsm hall hi
    rw [hget]
    have hE : (match Poly.divRem p (genPolynomialFromRoots p xs)
        (genPolynomialFromRoots p [xs.getD i 0]) with
      | none => Poly.zero
      | some lr => Poly.scalarMul p lr.1
          (feInv p (genLagrangeDenom p xs i))) =
        Poly.scalarMul p li (feInv p (genLagrangeDenom p xs i)) := by
      rw [hsome]
    rw [hE]
    obtain ⟨hallS, hOr, hT⟩ := scalarMul_ok hp.pos (Or.inl hliwf)
      (feInv p (genLagrangeDenom p xs i))
    refine ⟨hOr, ?_⟩
    rw [hT]
    congr 1
    apply mul_left_cancel₀ ((monic_X_sub_C ((xs.getD i 0 : Nat) : ZMod p)).ne_zero)
    rw [hlit, prodLinear_eraseIdx xs i hi]

/-- The accumulation loop of `interpolate_lagrange_polynomials`: the sum of
the scaled basis polynomials, well-formed by construction. -/
theorem interpFold_spec {p : Nat} (hp : 0 < p) (hsm : p < 2 ^ 32)
    (l : List Poly) (ys : List Nat) :
    ∀ n, (∀ i, i < n →
        PolyWF p (l.getD i Poly.zero) ∨ (l.getD i Poly.zero).isZero = false) →
      PolyWF p ((List.range n).foldl
        (fun acc i => Poly.addAssign p acc
          (Poly.scalarMul p (l.getD i Poly.zero) (ys.getD i 0))) Poly.zero) ∧
      toPoly p ((List.range n).foldl
        (fun acc i => Poly.addAssign p acc
          (Poly.scalarMul p (l.getD i Poly.zero) (ys.getD i 0)))
          Poly.zero).coefficients =
        ∑ i ∈ Finset.range n, Polynomial.C ((ys.getD i 0 : Nat) : ZMod p) *
          toPoly p (l.getD i Poly.zero).coefficients := by
  intro n
  induction n with
  | zero =>
    intro _
    refine ⟨polyZero_wf p, ?_⟩
    show toPoly p ([] : List Nat) = _
    rw [toPoly_nil]
    simp
  | succ n ih =>
    intro h
    obtain ⟨hwa, hta⟩ := ih (fun i hi => h i (by omega))
    rw [List.range_succ, List.foldl_append, List.foldl_cons, List.foldl_nil]
    obtain ⟨hbl, hbor, hbt⟩ := scalarMul_ok hp (h n (by omega)) (ys.getD n 0)
    obtain ⟨hw, ht⟩ := addAssign_spec hp hsm hwa hbl hbor
    exact ⟨hw, by rw [ht, hta, hbt, Finset.sum_range_succ]⟩

open Polynomial in
/-- **C9 (confirmed).** Lagrange interpolation round-trip: over a prime
modulus, interpolating the evaluations of a well-formed polynomial of
degree `< n` at `n` distinct reduced nodes returns exactly that
polynomial. -/
theorem claim_C9_interpolation_roundtrip {p : Nat} (hp : p.Prime)
    (hsm : p < 2 ^ 32) {xs : List Nat} (hall : allLt p xs) (hnd : xs.Nodup)
    {q : Poly} (hq : PolyWF p q) (hdeg : q.degree < (xs.length : Int)) :
    interpolateLagrangePolys p xs (xs.map (Poly.evaluate p q)) = some q := by
  haveI : Fact p.Prime := ⟨hp⟩
  haveI : Fact (1 < p) := ⟨hp.one_lt⟩
  have hp0 : 0 < p := hp.pos
  have hp2 : 1 < p := hp.one_lt
  rw [interpolateLagrangePolys, if_neg (by rw [List.length_map]; exact fun h => h rfl)]
  by_cases hn0 : xs.length = 0
  · rw [if_pos hn0]
    have hcempty : q.coefficients = [] := by
      by_contra hc
      have hd := hq.2.2
      rw [degOf, if_neg (by simpa using hc)] at hd
      have hlen := List.length_pos.mpr hc
      rw [hn0] at hdeg
      omega
    have hqz : q = Poly.zero := by
      apply wf_eq_zero hq
      rw [Poly.isZero, hq.2.2, hcempty]
      rfl
    rw [hqz]
  · rw [if_neg hn0]
    have hne : xs ≠ [] := fun h => hn0 (by rw [h]; rfl)
    obtain ⟨l, hsome, hllen, hent⟩ := genLagrangePolys_spec hp hsm hall hne
    rw [hsome]
    obtain ⟨hfw, hft⟩ := interpFold_spec hp0 hsm l (xs.map (Poly.evaluate p q))
      xs.length (fun i hi => (hent i hi).1)
    have hys : ∀ i, i < xs.length →
        (xs.map (Poly.evaluate p q)).getD i 0 = Poly.evaluate p q (xs.getD i 0) := by
      intro i hi
      rw [List.getD_eq_getElem _ _ (by rw [List.length_map]; exact hi),
        List.getElem_map, List.getD_eq_getElem xs 0 hi]
    have hcastnodup : (xs.map (fun r => ((r : Nat) : ZMod p))).Nodup :=
      List.Nodup.map_on (fun x hx y hy hxy => castNat_inj (hall x hx) (hall y hy) hxy) hnd
    have hcard : (xs.map (fun r => ((r : Nat) : ZMod p))).toFinset.card = xs.length := by
      rw [List.toFinset_card_of_nodup hcastnodup, List.length_map]
    have hqlen : q.coefficients.length ≤ xs.length := by
      by_cases hc : q.coefficients = []
      · rw [hc]
        simp only [List.length_nil]
        omega
      · have hd := hq.2.2
        rw [degOf, if_neg (by simpa using hc)] at hd
        omega
    have hdegq : (toPoly p q.coefficients).degree <
        (((xs.map (fun r => ((r : Nat) : ZMod p))).toFinset.card : Nat) : WithBot Nat) := by
      rw [hcard]
      exact lt_of_lt_of_le (toPoly_degree_lt p _) (by exact_mod_cast hqlen)
    have hentdeg : ∀ i, i < xs.length →
        (toPoly p (l.getD i Poly.zero).coefficients).degree ≤
          ((xs.length - 1 : Nat) : WithBot Nat) := by
      intro i hi
      rw [(hent i hi).2]
      refine le_trans (Polynomial.degree_mul_le _ _) ?_
      have hlen' : (xs.eraseIdx i).length = xs.length - 1 := by
        rw [List.length_eraseIdx, if_pos hi]
      have hm := prodLinear_monic hp2 (p := p) (xs.eraseIdx i)
      calc (C ((feInv p (genLagrangeDenom p xs i) : Nat) : ZMod p)).degree +
            ((xs.eraseIdx i).map (fun r => X - C ((r : Nat) : ZMod p))).prod.degree
          ≤ 0 + ((xs.length - 1 : Nat) : WithBot Nat) := by
            refine add_le_add Polynomial.degree_C_le ?_
            rw [Polynomial.degree_eq_natDegree hm.1.ne_zero, hm.2, hlen']
        _ = ((xs.length - 1 : Nat) : WithBot Nat) := by rw [zero_add]
    have hdegf : (∑ i ∈ Finset.range xs.length,
        C (((xs.map (Poly.evaluate p q)).getD i 0 : Nat) : ZMod p) *
          toPoly p (l.getD i Poly.zero).coefficients).degree <
        (((xs.map (fun r => ((r : Nat) : ZMod p))).toFinset.card : Nat) : WithBot Nat) := by
      rw [hcard]
      refine lt_of_le_of_lt (Polynomial.degree_sum_le _ _) ?_
      rw [Finset.sup_lt_iff (WithBot.bot_lt_coe _)]
      intro b hb
      have hb' : b < xs.length := Finset.mem_range.mp hb
      refine lt_of_le_of_lt (Polynomial.degree_mul_le _ _) ?_
      calc (C (((xs.map (Poly.evaluate p q)).getD b 0 : Nat) : ZMod p)).degree +
            (toPoly p (l.getD b Poly.zero).coefficients).degree
          ≤ 0 + ((xs.length - 1 : Nat) : WithBot Nat) :=
            add_le_add Polynomial.degree_C_le (hentdeg b hb')
        _ = ((xs.length - 1 : Nat) : WithBot Nat) := by rw [zero_add]
        _ < ((xs.length : Nat) : WithBot Nat) := by
            exact_mod_cast Nat.sub_lt (by omega) one_pos
    have heval : ∀ x ∈ (xs.map (fun r => ((r : Nat) : ZMod p))).toFinset,
        Polynomial.eval x (∑ i ∈ Finset.range xs.length,
          C (((xs.map (Poly.evaluate p q)).getD i 0 : Nat) : ZMod p) *
            toPoly p (l.getD i Poly.zero).coefficients) =
        Polynomial.eval x (toPoly p q.coefficients) := by
      intro x hx
      rw [List.mem_toFinset] at hx
      obtain ⟨a, hax, rfl⟩ := List.mem_map.mp hx
      obtain ⟨j, hj, rfl⟩ := List.getElem_of_mem hax
      have hjmem : xs[j] ∈ xs := List.getElem_mem _
      have hjlt : xs[j] < p := hall _ hjmem
      have hgetj : xs.getD j 0 = xs[j] := List.getD_eq_getElem xs 0 hj
      -- the denominator at node j
      obtain ⟨hdenLt, hdenCast⟩ := genLagrangeDenom_cast hp2 hsm xs hall j
      have hdenProd : ((genLagrangeDenom p xs j : Nat) : ZMod p) =
          ((xs.eraseIdx j).map
            (fun r => ((xs.getD j 0 : Nat) : ZMod p) - ((r : Nat) : ZMod p))).prod := by
        rw [hdenCast, rangeProd_eq_eraseIdx_prod xs j hj]
      have hdenNe0 : ((genLagrangeDenom p xs j : Nat) : ZMod p) ≠ 0 := by
        rw [hdenCast]
        apply List.prod_ne_zero
        intro h0
        obtain ⟨k, hk, hk0⟩ := List.mem_map.mp h0
        by_cases hjk : j = k
        · rw [if_pos hjk] at hk0
          exact (one_ne_zero (α := ZMod p)) hk0
        · rw [if_neg hjk] at hk0
          have hkr : k < xs.length := List.mem_range.mp hk
          have := sub_eq_zero.mp hk0
          have hxeq : xs.getD j 0 = xs.getD k 0 :=
            castNat_inj (getD_lt_of_allLt hp0 hall j) (getD_lt_of_allLt hp0 hall k) this
          rw [hgetj, List.getD_eq_getElem xs 0 hkr] at hxeq
          exact hjk ((List.Nodup.getElem_inj_iff hnd).mp hxeq)
      have hdenNe : genLagrangeDenom p xs j ≠ 0 := by
        intro h0
        exact hdenNe0 (by rw [h0]; simp)
      have hErase : ∀ i, i < xs.length → j ≠ i →
          Polynomial.eval ((xs[j] : Nat) : ZMod p)
            ((xs.eraseIdx i).map (fun r => X - C ((r : Nat) : ZMod p))).prod = 0 := by
        intro i hi hji
        rw [eval_list_prod]
        apply List.prod_eq_zero
        have hjmem' : xs[j] ∈ xs.eraseIdx i :=
          List.mem_eraseIdx_iff_getElem.mpr ⟨j, hj, hji, rfl⟩
        exact List.mem_map.mpr ⟨X - C ((xs[j] : Nat) : ZMod p),
          List.mem_map.mpr ⟨xs[j], hjmem', rfl⟩, by simp⟩
      rw [Polynomial.eval_finset_sum]
      rw [Finset.sum_eq_single_of_mem j (Finset.mem_range.mpr hj) ?side]
      case side =>
        intro b hb hbj
        have hb' : b < xs.length := Finset.mem_range.mp hb
        rw [eval_mul, (hent b hb').2, eval_mul, eval_C, eval_C,
          hErase b hb' (fun h => hbj h.symm)]
        ring
      -- the surviving diagonal term
      rw [eval_mul, (hent j hj).2, eval_mul, eval_C, eval_C]
      have hEvalDiag : Polynomial.eval ((xs[j] : Nat) : ZMod p)
          ((xs.eraseIdx j).map (fun r => X - C ((r : Nat) : ZMod p))).prod =
          ((genLagrangeDenom p xs j : Nat) : ZMod p) := by
        rw [eval_list_prod, List.map_map, hdenProd, hgetj]
        refine congrArg List.prod (List.map_congr_left ?_)
        intro r _
        simp
      rw [hEvalDiag, feInv_cast hp hsm hdenLt hdenNe, inv_mul_cancel₀ hdenNe0,
        mul_one, hys j hj, hgetj]
      exact evaluate_cast hsm hjlt q hq.1
    have hfq := Polynomial.eq_of_degrees_lt_of_eval_finset_eq
      ((xs.map (fun r => ((r : Nat) : ZMod p))).toFinset) hdegf hdegq heval
    have hfold : ((List.range xs.length).foldl
        (fun acc i => Poly.addAssign p acc
          (Poly.scalarMul p (l.getD i Poly.zero)
            ((xs.map (Poly.evaluate p q)).getD i 0))) Poly.zero) = q :=
      wf_eq_of_toPoly_eq hp0 hfw hq (by rw [hft]; exact hfq)
    exact congrArg some hfold

/-- Witness for C9: the `test_interpolate_lagrange_polynomials` vector —
nodes `[2, 3, 5]` in `F₇` and the polynomial `5 + 3x + x²`. -/
theorem claim_C9_interpolation_roundtrip_witness :
    interpolateLagrangePolys 7 [2, 3, 5]
      ([2, 3, 5].map (Poly.evaluate 7 ⟨[5, 3, 1], 2⟩)) = some ⟨[5, 3, 1], 2⟩ :=
  claim_C9_interpolation_roundtrip (by norm_num) (by norm_num) (by decide)
    (by decide) (by decide) (by decide)

end StarkProver
